import Mathlib

/-!
Verification of the `go-exp` repository's ordered-map components: the
`treemap` package (a generic left-leaning red-black 2-3 BST with an
in-order iterator), and the earlier `redblack` and `rbtree` packages.

Shallow embedding conventions:
* Go's `*node` pointer structure is embedded as the inductive `Tree`;
  a nil pointer is the `Tree.nil` constructor.
* `color` is `Bool` with `red = true`, `black = false`, exactly as in the
  source (`red color = true`, `black color = false`).
* Parent back-references are not stored: the insert code keeps every
  parent pointer equal to the inverse of the owning child link (each
  rotation reassigns them, and `insert` reassigns `cur.left.parent` /
  `cur.right.parent` after every recursive call), so a node's identity is
  its path from the root.  Iterator positions are therefore embedded as
  root-to-node direction paths (`List Dir`), and "walk to the parent"
  drops the last direction.
* Operations that can dereference a nil pointer at run time are embedded
  with `Option`: `none` is the run-time fault.  Operations whose Go code
  cannot fault are embedded as total functions.
-/

namespace Treemap

def red : Bool := true

def black : Bool := false

inductive Tree (K V : Type) where
  | nil : Tree K V
  | node (key : K) (value : V) (color : Bool) (left : Tree K V) (right : Tree K V)
  deriving DecidableEq

variable {K V : Type}

namespace Tree

/-- Embeds Go's `n.isRed()`: nil nodes report not-red, others their color. -/
def isRed : Tree K V → Bool
  | nil => false
  | node _ _ c _ _ => c

/-- Child projection; `nil` on the nil tree.  Go only reads `.left` behind
short-circuiting `isRed` guards, so the fabricated `nil` value is never
observed where the Go code would fault. -/
def left : Tree K V → Tree K V
  | nil => nil
  | node _ _ _ l _ => l

def right : Tree K V → Tree K V
  | nil => nil
  | node _ _ _ _ r => r

/-- Embeds the Go `== nil` pointer test. -/
def isNil : Tree K V → Bool
  | nil => true
  | node _ _ _ _ _ => false

def key? : Tree K V → Option K
  | nil => none
  | node k _ _ _ _ => some k

def value? : Tree K V → Option V
  | nil => none
  | node _ v _ _ _ => some v

/-- In-order key sequence of the tree. -/
def keys : Tree K V → List K
  | nil => []
  | node k _ _ l r => keys l ++ k :: keys r

def size : Tree K V → Nat
  | nil => 0
  | node _ _ _ l r => size l + size r + 1

end Tree

/-- Embeds `treemap.(*node).rotateLeft` (and `rbtree`'s, which is the same up
to parent bookkeeping): the right child becomes the subtree root carrying the
old root's color, the old root turns red and takes the right child's former
left subtree as its right child.  Go dereferences `n.right`; every caller
guards on `n.right` being red (hence present), so the catch-all branch is
never reached from `insert`. -/
def rotateLeft : Tree K V → Tree K V
  | .node k v c l (.node rk rv _ rl rr) => .node rk rv c (.node k v red l rl) rr
  | t => t

/-- Embeds `treemap.(*node).rotateRight` (and `rbtree`'s): the left child `x`
becomes the subtree root carrying the old root's color, the old root turns
red and takes `x`'s former right subtree as its left child. -/
def rotateRight : Tree K V → Tree K V
  | .node k v c (.node lk lv _ ll lr) r => .node lk lv c ll (.node k v red lr r)
  | t => t

/-- Embeds `redblack.(*Node).rotateRight`, which ends with `return h` instead
of `return x`: after the pointer surgery the function hands back the demoted
node `h` (now red, with `x`'s former right subtree as its left child), and the
former left child `x` together with `x`'s left subtree is no longer reachable
from the returned root. -/
def redblackRotateRight : Tree K V → Tree K V
  | .node k v _ (.node _ _ _ _ lr) r => .node k v red lr r
  | t => t

/-- Embeds `rbtree.(*Node).rotateRight`; identical to the treemap version
(the parent back-reference updates are represented implicitly). -/
def rbtreeRotateRight : Tree K V → Tree K V
  | .node k v c (.node lk lv _ ll lr) r => .node lk lv c ll (.node k v red lr r)
  | t => t

/-- Embeds `treemap.(*node).flipColors`: invert the node's color and both
children's colors.  Callers only invoke it when both children are red (hence
present). -/
def flipColors : Tree K V → Tree K V
  | .node k v c (.node lk lv lc ll lr) (.node rk rv rc rl rr) =>
      .node k v (!c) (.node lk lv (!lc) ll lr) (.node rk rv (!rc) rl rr)
  | t => t

/-- The fix-up ladder at the end of `treemap.(*TreeMap).insert`, three
conditionals re-evaluated in order on the possibly-rotated node. -/
def fixUp (cur : Tree K V) : Tree K V :=
  let cur1 := if cur.right.isRed && !cur.left.isRed then rotateLeft cur else cur
  let cur2 := if cur1.left.isRed && cur1.left.left.isRed then rotateRight cur1 else cur1
  if cur2.left.isRed && cur2.right.isRed then flipColors cur2 else cur2

/-- Embeds the recursive `treemap.(*TreeMap).insert`: descend by the
comparator, create a red leaf at a nil link or overwrite the value on an
exact match, then apply the fix-up ladder on the way out. -/
def insertGo (cmp : K → K → Int) : Tree K V → K → V → Tree K V
  | .nil, k, v => .node k v red .nil .nil
  | .node ck cv cc cl cr, k, v =>
    let c := cmp k ck
    let cur :=
      if c < 0 then Tree.node ck cv cc (insertGo cmp cl k v) cr
      else if 0 < c then Tree.node ck cv cc cl (insertGo cmp cr k v)
      else Tree.node ck v cc cl cr
    fixUp cur

/-- Embeds the `t.root.color = black` assignment at the end of `Insert`.
Go would fault on a nil root, but `insert` never returns nil. -/
def blacken : Tree K V → Tree K V
  | .nil => .nil
  | .node k v _ l r => .node k v black l r

/-- Embeds the iterative loop of `treemap.(*TreeMap).Search`. -/
def searchGo (cmp : K → K → Int) : Tree K V → K → Option V
  | .nil, _ => none
  | .node ck cv _ cl cr, k =>
    let c := cmp k ck
    if c = 0 then some cv
    else if c < 0 then searchGo cmp cl k
    else searchGo cmp cr k

/-- Embeds `treemap.defaultComparator` for a naturally ordered key type. -/
def defaultComparator [LinearOrder K] (a b : K) : Int :=
  if a < b then -1 else if a > b then 1 else 0

structure TreeMap (K V : Type) where
  root : Tree K V
  comparator : K → K → Int
  length : Nat

/-- Embeds `treemap.New`: empty root, default comparator, zero length. -/
def New (K V : Type) [LinearOrder K] : TreeMap K V :=
  ⟨Tree.nil, defaultComparator, 0⟩

/-- The map `NewWithComparator` produces when a comparator function is
supplied: empty root, the given comparator, zero length. -/
def ofComparator (cmp : K → K → Int) : TreeMap K V :=
  ⟨Tree.nil, cmp, 0⟩

namespace TreeMap

/-- Embeds `treemap.(*TreeMap).Insert`: replace the root by the recursive
insert, force the root black, bump the length. -/
def Insert (t : TreeMap K V) (k : K) (v : V) : TreeMap K V :=
  ⟨blacken (insertGo t.comparator t.root k v), t.comparator, t.length + 1⟩

/-- Embeds `treemap.(*TreeMap).Length`. -/
def Length (t : TreeMap K V) : Nat :=
  t.length

/-- Embeds `treemap.(*TreeMap).Search`: the found value with `true`, or the
zero value of `V` (Go's `*new(V)`, Lean's `default`) with `false`. -/
def Search [Inhabited V] (t : TreeMap K V) (k : K) : V × Bool :=
  match searchGo t.comparator t.root k with
  | some v => (v, true)
  | none => (default, false)

end TreeMap

/-- A finite sequence of `Insert` calls starting from a given map. -/
def insertAll (t : TreeMap K V) (l : List (K × V)) : TreeMap K V :=
  l.foldl (fun acc kv => acc.Insert kv.1 kv.2) t

/-- Embeds the `Option` values accepted by `treemap.NewWithComparator`:
`WithCompareFunc` carries a three-way comparison function, `WithComparer`
carries one comparer capability instance, i.e. the `CompareTo` method of a
fixed key value. -/
inductive TMOption (K : Type) where
  | withCompareFunc (compareFunc : K → K → Int)
  | withComparer (compareTo : K → Int)

/-- The comparator `treemap.WithComparer` installs: `func(a, b K) int {
return comparer.CompareTo(b) }` — the first argument is ignored and the
constructor-time comparer instance is compared against `b`. -/
def withComparerComparator (compareTo : K → Int) : K → K → Int :=
  fun _ b => compareTo b

/-- Applying one functional option to the comparator field under
construction. -/
def applyOpt : TMOption K → Option (K → K → Int) → Option (K → K → Int)
  | .withCompareFunc f, _ => some f
  | .withComparer compareTo, _ => some (withComparerComparator compareTo)

/-- Embeds `treemap.NewWithComparator`: apply all options to a fresh map,
fail with the configuration error when no comparator was installed. -/
def NewWithComparator (opts : List (TMOption K)) : Except String (TreeMap K V) :=
  match opts.foldl (fun acc o => applyOpt o acc) none with
  | none => .error "must provide a valid comparator"
  | some cmp => .ok (ofComparator cmp)

/-! ### The structural invariants (spec §3 / §8) -/

/-- Invariant 1, BST ordering: every key in a left subtree compares strictly
below the node's key, every key in a right subtree strictly above. -/
def isBSTb (cmp : K → K → Int) : Tree K V → Bool
  | .nil => true
  | .node k _ _ l r =>
      (Tree.keys l).all (fun x => decide (cmp x k < 0)) &&
      (Tree.keys r).all (fun x => decide (0 < cmp x k)) &&
      isBSTb cmp l && isBSTb cmp r

/-- Invariant 2: no node has a red right child. -/
def noRedRight : Tree K V → Bool
  | .nil => true
  | .node _ _ _ l r => !r.isRed && noRedRight l && noRedRight r

/-- Invariant 3: no node has a red left child whose own left child is red. -/
def noRedRedLeft : Tree K V → Bool
  | .nil => true
  | .node _ _ _ l r => !(l.isRed && l.left.isRed) && noRedRedLeft l && noRedRedLeft r

/-- Black-link count of every root-to-absent-child path, one list entry per
absent child, counting the link into each black node (an absent child itself
counts as a black nil link uniformly, so it is omitted). -/
def blackCounts : Tree K V → List Nat
  | .nil => [0]
  | .node _ _ c l r =>
      (blackCounts l ++ blackCounts r).map (fun n => n + if c then 0 else 1)

def allSame : List Nat → Bool
  | [] => true
  | x :: xs => xs.all (· == x)

/-- Black height along the left spine (for balanced trees, of every path). -/
def bh : Tree K V → Nat
  | .nil => 0
  | .node _ _ c l _ => bh l + (if c then 0 else 1)

/-- Invariant 4 in recursive form, used by the induction. -/
def balancedb : Tree K V → Bool
  | .nil => true
  | .node _ _ _ l r => (bh l == bh r) && balancedb l && balancedb r

/-- A valid ordering strategy (spec §4.1: a three-way comparison consistent
with a strict total order): zero exactly on equal keys, sign anti-symmetry,
and transitivity of the negative sign. -/
structure ValidOrder (cmp : K → K → Int) : Prop where
  eq_iff : ∀ a b, cmp a b = 0 ↔ a = b
  flip : ∀ a b, 0 < cmp a b ↔ cmp b a < 0
  trans : ∀ a b c, cmp a b < 0 → cmp b c < 0 → cmp a c < 0

/-- Well-formed LLRB subtree with root color `c` and black height `n`:
right children are black, a red node has two black children (so red links
lean left and never stack), and both children carry the same black height. -/
inductive Good : Tree K V → Bool → Nat → Prop where
  | nil : Good .nil black 0
  | blackNode (k : K) (v : V) {l r : Tree K V} {cl : Bool} {n : Nat} :
      Good l cl n → Good r black n → Good (.node k v black l r) black (n + 1)
  | redNode (k : K) (v : V) {l r : Tree K V} {n : Nat} :
      Good l black n → Good r black n → Good (.node k v red l r) red n

/-- The transient shape `insert` can hand back after inserting into a red
node: a red root whose left child is also red (both well-formed below). -/
def Infra (t : Tree K V) (n : Nat) : Prop :=
  ∃ k v l r, t = Tree.node k v red l r ∧ Good l red n ∧ Good r black n

/-! ### Iterator embedding -/

/-- One step of a root-to-node path. -/
inductive Dir where
  | left : Dir
  | right : Dir
  deriving DecidableEq

/-- The node a root-to-node path points at; `none` when the path walks
through an absent child (embedding artifact: Go positions are always real
nodes, and all lemmas below carry validity hypotheses). -/
def nodeAt : Tree K V → List Dir → Option (Tree K V)
  | .nil, _ => none
  | .node k v c l r, [] => some (.node k v c l r)
  | .node _ _ _ l _, .left :: p => nodeAt l p
  | .node _ _ _ _ r, .right :: p => nodeAt r p

/-- Path taken by the `for cur.left != nil` descent of `Begin`. -/
def leftPath : Tree K V → List Dir
  | .nil => []
  | .node _ _ _ l _ =>
    match l with
    | .nil => []
    | .node .. => Dir.left :: leftPath l

/-- Path taken by the `for cur.right != nil` descent of `Last`. -/
def rightPath : Tree K V → List Dir
  | .nil => []
  | .node _ _ _ _ r =>
    match r with
    | .nil => []
    | .node .. => Dir.right :: rightPath r

/-- Embeds `treemap.(*Iterator).Begin`: descend to the leftmost node.  On an
empty tree the Go loop condition dereferences the nil root: run-time fault. -/
def beginGo : Tree K V → Option (List Dir)
  | .nil => none
  | .node k v c l r => some (leftPath (.node k v c l r))

/-- Embeds `treemap.(*Iterator).Last` symmetrically. -/
def lastGo : Tree K V → Option (List Dir)
  | .nil => none
  | .node k v c l r => some (rightPath (.node k v c l r))

/-- The backtracking loop of `Next` (`for cur == cur.parent.right`), acting on
the reversed path of the current node once the first guard evaluation is
known safe: climb while the node is its parent's right child; report
off-the-end when the climb reaches the root. -/
def backUpNext : Dir → List Dir → Option (List Dir) × Bool
  | .left, rest => (some rest, true)
  | .right, [] => (none, false)
  | .right, d :: rest => backUpNext d rest

/-- Mirror image for `Prev` (`for cur == cur.parent.left`). -/
def backUpPrev : Dir → List Dir → Option (List Dir) × Bool
  | .right, rest => (some rest, true)
  | .left, [] => (none, false)
  | .left, d :: rest => backUpPrev d rest

/-- Embeds `treemap.(*Iterator).Next`.  The current position is `none` for
the off-the-end sentinel, otherwise the path of the current node.  The outer
`Option` is the run-time fault: `Next` from the sentinel faults on an empty
tree (via `Begin`), and `Next` at the root with no right child evaluates
`cur.parent.right` with `cur.parent == nil`. -/
def nextStep (t : Tree K V) (cur : Option (List Dir)) :
    Option (Option (List Dir) × Bool) :=
  match cur with
  | none => (beginGo t).map (fun p => (some p, true))
  | some p =>
    match nodeAt t p with
    | none => none
    | some .nil => none
    | some (.node _ _ _ _ r) =>
      match r with
      | .node .. => some (some (p ++ Dir.right :: leftPath r), true)
      | .nil =>
        match p.reverse with
        | [] => none
        | d :: rest =>
          let s := backUpNext d rest
          some (s.1.map List.reverse, s.2)

/-- Embeds `treemap.(*Iterator).Prev`, the exact mirror of `Next`. -/
def prevStep (t : Tree K V) (cur : Option (List Dir)) :
    Option (Option (List Dir) × Bool) :=
  match cur with
  | none => (lastGo t).map (fun p => (some p, true))
  | some p =>
    match nodeAt t p with
    | none => none
    | some .nil => none
    | some (.node _ _ _ l _) =>
      match l with
      | .node .. => some (some (p ++ Dir.left :: rightPath l), true)
      | .nil =>
        match p.reverse with
        | [] => none
        | d :: rest =>
          let s := backUpPrev d rest
          some (s.1.map List.reverse, s.2)

/-- Iterator state: the owning map and the current position. -/
structure Iterator (K V : Type) where
  tree : TreeMap K V
  current : Option (List Dir)

/-- Embeds `treemap.(*TreeMap).Iterator`, which builds an iterator and
immediately calls `Begin` on it (faulting on an empty map). -/
def TreeMap.Iterator (m : TreeMap K V) : Option (Treemap.Iterator K V) :=
  (beginGo m.root).map (fun p => ⟨m, some p⟩)

/-- Embeds `treemap.(*Iterator).End`. -/
def Iterator.End (it : Iterator K V) : Iterator K V :=
  ⟨it.tree, none⟩

/-- Embeds `treemap.(*Iterator).Key`: zero value off the end. -/
def Iterator.Key [Inhabited K] (it : Iterator K V) : K :=
  match it.current with
  | none => default
  | some p => (((nodeAt it.tree.root p).bind Tree.key?).getD default)

/-- Embeds `treemap.(*Iterator).Value`: zero value off the end. -/
def Iterator.Value [Inhabited V] (it : Iterator K V) : V :=
  match it.current with
  | none => default
  | some p => (((nodeAt it.tree.root p).bind Tree.value?).getD default)

/-- The full forward iteration protocol: record the key under the current
position, call `Next`, stop when it reports `false`; `none` is a run-time
fault (fuel exhaustion cannot occur when fuel exceeds the tree size). -/
def forwardFrom (t : Tree K V) : Nat → List Dir → Option (List K)
  | 0, _ => none
  | fuel + 1, p =>
    match nextStep t (some p) with
    | none => none
    | some (none, _) => some []
    | some (some q, _) =>
      match nodeAt t q with
      | none => none
      | some m =>
        match m.key? with
        | none => none
        | some k => (forwardFrom t fuel q).map (fun l => k :: l)

/-- Keys visited by `Begin` followed by `Next` until it first returns
`false`; `none` when some step faults. -/
def forwardRun (t : Tree K V) : Option (List K) :=
  match beginGo t with
  | none => none
  | some p =>
    match nodeAt t p with
    | none => none
    | some n =>
      match n.key? with
      | none => none
      | some k => (forwardFrom t t.size p).map (fun l => k :: l)

/-- Mirror of `forwardFrom` for `Prev`. -/
def backwardFrom (t : Tree K V) : Nat → List Dir → Option (List K)
  | 0, _ => none
  | fuel + 1, p =>
    match prevStep t (some p) with
    | none => none
    | some (none, _) => some []
    | some (some q, _) =>
      match nodeAt t q with
      | none => none
      | some m =>
        match m.key? with
        | none => none
        | some k => (backwardFrom t fuel q).map (fun l => k :: l)

/-- Keys visited by `Last` followed by `Prev` until it first returns
`false`; `none` when some step faults. -/
def backwardRun (t : Tree K V) : Option (List K) :=
  match lastGo t with
  | none => none
  | some p =>
    match nodeAt t p with
    | none => none
    | some n =>
      match n.key? with
      | none => none
      | some k => (backwardFrom t t.size p).map (fun l => k :: l)

/-! ### Claim-side definitions -/

/-- Follows the words of the duplicate-key claim: descend by the comparator
and overwrite the stored value in place, leaving structure and colors
untouched.  To be compared with what `insertGo` does on a present key. -/
def overwrite (cmp : K → K → Int) (k : K) (v : V) : Tree K V → Tree K V
  | .nil => .nil
  | .node ck cv cc cl cr =>
    if cmp k ck < 0 then .node ck cv cc (overwrite cmp k v cl) cr
    else if 0 < cmp k ck then .node ck cv cc cl (overwrite cmp k v cr)
    else .node ck v cc cl cr

/-- Keys, colors and links of a tree, forgetting the stored values. -/
def skeleton : Tree K V → Tree K Unit
  | .nil => .nil
  | .node k _ c l r => .node k () c (skeleton l) (skeleton r)

/-! ### Helper notions for the iterator proofs -/

/-- Keys that appear strictly after the whole subtree at path `p` in the
in-order sequence: the key and right subtree of every ancestor the path
leaves to the left. -/
def afterSub : Tree K V → List Dir → List K
  | .node k _ _ l r, Dir.left :: p => afterSub l p ++ k :: Tree.keys r
  | .node _ _ _ _ r, Dir.right :: p => afterSub r p
  | _, _ => []

/-- Keys that appear strictly after position `p` in the in-order sequence:
the current node's right subtree, then everything after the subtree. -/
def succKeys (t : Tree K V) (p : List Dir) : List K :=
  (match nodeAt t p with
   | some n => Tree.keys n.right
   | none => []) ++ afterSub t p

/-- Tree-level view of a sequence of `Insert` calls (root evolution). -/
def insertAllT (cmp : K → K → Int) (t : Tree K V) (l : List (K × V)) : Tree K V :=
  l.foldl (fun acc kv => blacken (insertGo cmp acc kv.1 kv.2)) t

/-- Left-right mirror image, used to transport `Next` facts to `Prev`. -/
def Tree.mirror : Tree K V → Tree K V
  | .nil => .nil
  | .node k v c l r => .node k v c (mirror r) (mirror l)

def Dir.flip : Dir → Dir
  | .left => .right
  | .right => .left

/-! ### Basic lemmas -/

theorem Insert_length (m : TreeMap K V) (k : K) (v : V) :
    (m.Insert k v).Length = m.Length + 1 := rfl

theorem insertAll_length (l : List (K × V)) :
    ∀ m : TreeMap K V, (insertAll m l).Length = m.Length + l.length := by
  induction l with
  | nil => intro m; rfl
  | cons kv rest ih =>
    intro m
    have h1 : insertAll m (kv :: rest) = insertAll (m.Insert kv.1 kv.2) rest := rfl
    rw [h1, ih]
    simp [TreeMap.Length, TreeMap.Insert]
    omega

theorem applyOpt_isSome (o : TMOption K) (acc : Option (K → K → Int)) :
    (applyOpt o acc).isSome = true := by
  cases o <;> rfl

theorem foldl_applyOpt_isSome (opts : List (TMOption K)) (acc : Option (K → K → Int))
    (h : opts ≠ []) :
    (opts.foldl (fun acc o => applyOpt o acc) acc).isSome = true := by
  induction opts generalizing acc with
  | nil => exact absurd rfl h
  | cons o rest ih =>
    rcases rest with _ | ⟨o2, rest2⟩
    · exact applyOpt_isSome o acc
    · exact ih (applyOpt o acc) (by simp)

theorem ite_pres {α : Sort _} (Q : α → Prop) (P : Prop) [Decidable P] (f : α → α) (x : α)
    (hf : Q x → Q (f x)) (hx : Q x) : Q (if P then f x else x) := by
  split
  · exact hf hx
  · exact hx

/-- Any property preserved by the three local fix-up operations is preserved
by the fix-up ladder. -/
theorem fixUp_pres (Q : Tree K V → Prop)
    (hL : ∀ x, Q x → Q (rotateLeft x)) (hR : ∀ x, Q x → Q (rotateRight x))
    (hF : ∀ x, Q x → Q (flipColors x)) (x : Tree K V) (hx : Q x) : Q (fixUp x) := by
  unfold fixUp
  exact ite_pres Q _ _ _ (hF _) (ite_pres Q _ _ _ (hR _) (ite_pres Q _ _ _ (hL _) hx))

theorem keys_rotateLeft (t : Tree K V) : (rotateLeft t).keys = t.keys := by
  cases t with
  | nil => rfl
  | node k v c l r =>
    cases r with
    | nil => rfl
    | node rk rv rc rl rr => simp [rotateLeft, Tree.keys]

theorem keys_rotateRight (t : Tree K V) : (rotateRight t).keys = t.keys := by
  cases t with
  | nil => rfl
  | node k v c l r =>
    cases l with
    | nil => rfl
    | node lk lv lc ll lr => simp [rotateRight, Tree.keys]

theorem keys_flipColors (t : Tree K V) : (flipColors t).keys = t.keys := by
  cases t with
  | nil => rfl
  | node k v c l r =>
    cases l with
    | nil => rfl
    | node lk lv lc ll lr =>
      cases r with
      | nil => rfl
      | node rk rv rc rl rr => simp [flipColors, Tree.keys]

theorem keys_fixUp (t : Tree K V) : (fixUp t).keys = t.keys :=
  fixUp_pres (fun x => x.keys = t.keys)
    (fun x hx => (keys_rotateLeft x).trans hx)
    (fun x hx => (keys_rotateRight x).trans hx)
    (fun x hx => (keys_flipColors x).trans hx) t rfl

theorem keys_blacken (t : Tree K V) : (blacken t).keys = t.keys := by
  cases t <;> rfl

theorem keys_insertGo (cmp : K → K → Int) (k : K) (v : V) :
    ∀ t : Tree K V, ∀ x ∈ (insertGo cmp t k v).keys, x ∈ t.keys ∨ x = k := by
  intro t
  induction t with
  | nil =>
    intro x hx
    simp [insertGo, Tree.keys] at hx
    exact Or.inr hx
  | node ck cv cc cl cr ihl ihr =>
    intro x hx
    rcases lt_trichotomy (cmp k ck) 0 with h | h | h
    · rw [insertGo] at hx
      simp only [h, if_pos] at hx
      rw [keys_fixUp] at hx
      simp only [Tree.keys, List.mem_append, List.mem_cons] at hx
      rcases hx with hx | hx | hx
      · rcases ihl x hx with h2 | h2
        · exact Or.inl (by simp [Tree.keys, h2])
        · exact Or.inr h2
      · exact Or.inl (by simp [Tree.keys, hx])
      · exact Or.inl (by simp [Tree.keys, hx])
    · rw [insertGo] at hx
      simp only [h, lt_irrefl, if_false, if_neg (lt_irrefl 0)] at hx
      rw [keys_fixUp] at hx
      simp only [Tree.keys, List.mem_append, List.mem_cons] at hx
      exact Or.inl (by simp [Tree.keys]; tauto)
    · rw [insertGo] at hx
      simp only [if_neg (asymm h), if_pos h] at hx
      rw [keys_fixUp] at hx
      simp only [Tree.keys, List.mem_append, List.mem_cons] at hx
      rcases hx with hx | hx | hx
      · exact Or.inl (by simp [Tree.keys, hx])
      · exact Or.inl (by simp [Tree.keys, hx])
      · rcases ihr x hx with h2 | h2
        · exact Or.inl (by simp [Tree.keys, h2])
        · exact Or.inr h2

theorem isBSTb_node_iff (cmp : K → K → Int) (k : K) (v : V) (c : Bool) (l r : Tree K V) :
    isBSTb cmp (.node k v c l r) = true ↔
      (∀ x ∈ l.keys, cmp x k < 0) ∧ (∀ x ∈ r.keys, 0 < cmp x k) ∧
      isBSTb cmp l = true ∧ isBSTb cmp r = true := by
  simp [isBSTb, List.all_eq_true, Bool.and_eq_true, decide_eq_true_eq, and_assoc]

theorem isBSTb_rotateLeft (cmp : K → K → Int) (hv : ValidOrder cmp) (t : Tree K V)
    (h : isBSTb cmp t = true) : isBSTb cmp (rotateLeft t) = true := by
  cases t with
  | nil => exact h
  | node k v c l r =>
    cases r with
    | nil => exact h
    | node rk rv rc rl rr =>
      rw [isBSTb_node_iff] at h
      obtain ⟨hl, hr, hbl, hbr⟩ := h
      rw [isBSTb_node_iff] at hbr
      obtain ⟨hrl, hrr, hbrl, hbrr⟩ := hbr
      have hkrk : cmp k rk < 0 := (hv.flip rk k).mp (hr rk (by simp [Tree.keys]))
      rw [rotateLeft, isBSTb_node_iff]
      refine ⟨?_, ?_, ?_, hbrr⟩
      · intro x hx
        simp only [Tree.keys, List.mem_append, List.mem_cons] at hx
        rcases hx with hx | hx | hx
        · exact hv.trans x k rk (hl x hx) hkrk
        · rw [hx]; exact hkrk
        · exact hrl x hx
      · exact hrr
      · rw [isBSTb_node_iff]
        refine ⟨hl, ?_, hbl, hbrl⟩
        intro x hx
        exact hr x (by simp [Tree.keys, hx])

theorem isBSTb_rotateRight (cmp : K → K → Int) (hv : ValidOrder cmp) (t : Tree K V)
    (h : isBSTb cmp t = true) : isBSTb cmp (rotateRight t) = true := by
  cases t with
  | nil => exact h
  | node k v c l r =>
    cases l with
    | nil => exact h
    | node lk lv lc ll lr =>
      rw [isBSTb_node_iff] at h
      obtain ⟨hl, hr, hbl, hbr⟩ := h
      rw [isBSTb_node_iff] at hbl
      obtain ⟨hll, hlr, hbll, hblr⟩ := hbl
      have hlkk : cmp lk k < 0 := hl lk (by simp [Tree.keys])
      rw [rotateRight, isBSTb_node_iff]
      refine ⟨hll, ?_, hbll, ?_⟩
      · intro x hx
        simp only [Tree.keys, List.mem_append, List.mem_cons] at hx
        rcases hx with hx | hx | hx
        · exact hlr x hx
        · rw [hx]; exact (hv.flip k lk).mpr hlkk
        · exact (hv.flip x lk).mpr
            (hv.trans lk k x hlkk ((hv.flip x k).mp (hr x hx)))
      · rw [isBSTb_node_iff]
        refine ⟨?_, hr, hblr, hbr⟩
        intro x hx
        exact hl x (by simp [Tree.keys, hx])

theorem isBSTb_flipColors (cmp : K → K → Int) (t : Tree K V) :
    isBSTb cmp (flipColors t) = isBSTb cmp t := by
  cases t with
  | nil => rfl
  | node k v c l r =>
    cases l with
    | nil => rfl
    | node lk lv lc ll lr =>
      cases r with
      | nil => rfl
      | node rk rv rc rl rr => simp [flipColors, isBSTb, Tree.keys]

theorem isBSTb_fixUp (cmp : K → K → Int) (hv : ValidOrder cmp) (t : Tree K V)
    (h : isBSTb cmp t = true) : isBSTb cmp (fixUp t) = true :=
  fixUp_pres (fun x => isBSTb cmp x = true)
    (fun x hx => isBSTb_rotateLeft cmp hv x hx)
    (fun x hx => isBSTb_rotateRight cmp hv x hx)
    (fun x hx => (isBSTb_flipColors cmp x).trans hx) t h

theorem isBSTb_insertGo (cmp : K → K → Int) (hv : ValidOrder cmp) (k : K) (v : V) :
    ∀ t : Tree K V, isBSTb cmp t = true → isBSTb cmp (insertGo cmp t k v) = true := by
  intro t
  induction t with
  | nil =>
    intro _
    rw [insertGo, isBSTb_node_iff]
    simp [Tree.keys, isBSTb]
  | node ck cv cc cl cr ihl ihr =>
    intro h
    rw [isBSTb_node_iff] at h
    obtain ⟨hl, hr, hbl, hbr⟩ := h
    rcases lt_trichotomy (cmp k ck) 0 with hc | hc | hc
    · rw [insertGo]
      simp only [hc, if_pos]
      refine isBSTb_fixUp cmp hv _ ?_
      rw [isBSTb_node_iff]
      refine ⟨?_, hr, ihl hbl, hbr⟩
      intro x hx
      rcases keys_insertGo cmp k v cl x hx with h2 | h2
      · exact hl x h2
      · rw [h2]; exact hc
    · rw [insertGo]
      simp only [hc, lt_irrefl, if_false, if_neg (lt_irrefl 0)]
      refine isBSTb_fixUp cmp hv _ ?_
      rw [isBSTb_node_iff]
      exact ⟨hl, hr, hbl, hbr⟩
    · rw [insertGo]
      simp only [if_neg (asymm hc), if_pos hc]
      refine isBSTb_fixUp cmp hv _ ?_
      rw [isBSTb_node_iff]
      refine ⟨hl, ?_, hbl, ihr hbr⟩
      intro x hx
      rcases keys_insertGo cmp k v cr x hx with h2 | h2
      · exact hr x h2
      · rw [h2]; exact hc

theorem searchGo_rotateLeft (cmp : K → K → Int) (hv : ValidOrder cmp) (t : Tree K V)
    (h : isBSTb cmp t = true) (q : K) :
    searchGo cmp (rotateLeft t) q = searchGo cmp t q := by
  cases t with
  | nil => rfl
  | node k v c l r =>
    cases r with
    | nil => rfl
    | node rk rv rc rl rr =>
      rw [isBSTb_node_iff] at h
      obtain ⟨hl, hr, hbl, hbr⟩ := h
      have hkrk : cmp k rk < 0 := (hv.flip rk k).mp (hr rk (by simp [Tree.keys]))
      rcases lt_trichotomy (cmp q k) 0 with hq | hq | hq
      · have hqrk : cmp q rk < 0 := hv.trans q k rk hq hkrk
        simp [rotateLeft, searchGo, hq, hq.ne, hqrk, hqrk.ne]
      · have hqk : q = k := (hv.eq_iff q k).mp hq
        subst hqk
        simp [rotateLeft, searchGo, hq, hkrk, hkrk.ne]
      · have hqne : cmp q k ≠ 0 := by omega
        have hqnlt : ¬ cmp q k < 0 := by omega
        rcases lt_trichotomy (cmp q rk) 0 with hq2 | hq2 | hq2
        · simp [rotateLeft, searchGo, hq2, hq2.ne, hqne, hqnlt]
        · simp [rotateLeft, searchGo, hq2, hqne, hqnlt]
        · have h2ne : cmp q rk ≠ 0 := by omega
          have h2nlt : ¬ cmp q rk < 0 := by omega
          simp [rotateLeft, searchGo, h2ne, h2nlt, hqne, hqnlt]

theorem searchGo_rotateRight (cmp : K → K → Int) (hv : ValidOrder cmp) (t : Tree K V)
    (h : isBSTb cmp t = true) (q : K) :
    searchGo cmp (rotateRight t) q = searchGo cmp t q := by
  cases t with
  | nil => rfl
  | node k v c l r =>
    cases l with
    | nil => rfl
    | node lk lv lc ll lr =>
      rw [isBSTb_node_iff] at h
      obtain ⟨hl, hr, hbl, hbr⟩ := h
      have hlkk : cmp lk k < 0 := hl lk (by simp [Tree.keys])
      rcases lt_trichotomy (cmp q lk) 0 with hq | hq | hq
      · have hqk : cmp q k < 0 := hv.trans q lk k hq hlkk
        simp [rotateRight, searchGo, hq, hq.ne, hqk, hqk.ne]
      · have hqlk : q = lk := (hv.eq_iff q lk).mp hq
        subst hqlk
        have hqk : cmp q k < 0 := hlkk
        simp [rotateRight, searchGo, hq, hqk, hqk.ne]
      · have hqne : cmp q lk ≠ 0 := by omega
        have hqnlt : ¬ cmp q lk < 0 := by omega
        rcases lt_trichotomy (cmp q k) 0 with hq2 | hq2 | hq2
        · simp [rotateRight, searchGo, hq2, hq2.ne, hqne, hqnlt]
        · simp [rotateRight, searchGo, hq2, hqne, hqnlt]
        · have h2ne : cmp q k ≠ 0 := by omega
          have h2nlt : ¬ cmp q k < 0 := by omega
          simp [rotateRight, searchGo, h2ne, h2nlt, hqne, hqnlt]

theorem searchGo_flipColors (cmp : K → K → Int) (t : Tree K V) (q : K) :
    searchGo cmp (flipColors t) q = searchGo cmp t q := by
  cases t with
  | nil => rfl
  | node k v c l r =>
    cases l with
    | nil => rfl
    | node lk lv lc ll lr =>
      cases r with
      | nil => rfl
      | node rk rv rc rl rr => simp [flipColors, searchGo]

theorem searchGo_fixUp (cmp : K → K → Int) (hv : ValidOrder cmp) (t : Tree K V)
    (h : isBSTb cmp t = true) (q : K) :
    searchGo cmp (fixUp t) q = searchGo cmp t q :=
  (fixUp_pres (fun x => isBSTb cmp x = true ∧ searchGo cmp x q = searchGo cmp t q)
    (fun x hx => ⟨isBSTb_rotateLeft cmp hv x hx.1,
      (searchGo_rotateLeft cmp hv x hx.1 q).trans hx.2⟩)
    (fun x hx => ⟨isBSTb_rotateRight cmp hv x hx.1,
      (searchGo_rotateRight cmp hv x hx.1 q).trans hx.2⟩)
    (fun x hx => ⟨(isBSTb_flipColors cmp x).trans hx.1,
      (searchGo_flipColors cmp x q).trans hx.2⟩) t ⟨h, rfl⟩).2

theorem searchGo_blacken (cmp : K → K → Int) (t : Tree K V) (q : K) :
    searchGo cmp (blacken t) q = searchGo cmp t q := by
  cases t <;> simp [blacken, searchGo]

theorem isBSTb_blacken (cmp : K → K → Int) (t : Tree K V) :
    isBSTb cmp (blacken t) = isBSTb cmp t := by
  cases t <;> simp [blacken, isBSTb, Tree.keys]

theorem searchGo_insertGo_self (cmp : K → K → Int) (hv : ValidOrder cmp) (k : K) (v : V) :
    ∀ t : Tree K V, isBSTb cmp t = true →
      searchGo cmp (insertGo cmp t k v) k = some v := by
  intro t
  induction t with
  | nil =>
    intro _
    have hkk : cmp k k = 0 := (hv.eq_iff k k).mpr rfl
    simp [insertGo, searchGo, hkk]
  | node ck cv cc cl cr ihl ihr =>
    intro h
    have hb := h
    rw [isBSTb_node_iff] at hb
    obtain ⟨hl, hr, hbl, hbr⟩ := hb
    rcases lt_trichotomy (cmp k ck) 0 with hc | hc | hc
    · rw [insertGo]
      simp only [hc, if_pos]
      have hbst : isBSTb cmp (Tree.node ck cv cc (insertGo cmp cl k v) cr) = true := by
        rw [isBSTb_node_iff]
        refine ⟨?_, hr, isBSTb_insertGo cmp hv k v cl hbl, hbr⟩
        intro x hx
        rcases keys_insertGo cmp k v cl x hx with h2 | h2
        · exact hl x h2
        · rw [h2]; exact hc
      rw [searchGo_fixUp cmp hv _ hbst k]
      simp [searchGo, hc, hc.ne, ihl hbl]
    · rw [insertGo]
      simp only [hc, lt_irrefl, if_false, if_neg (lt_irrefl 0)]
      have hbst : isBSTb cmp (Tree.node ck v cc cl cr) = true := by
        rw [isBSTb_node_iff]; exact ⟨hl, hr, hbl, hbr⟩
      rw [searchGo_fixUp cmp hv _ hbst k]
      simp [searchGo, hc]
    · rw [insertGo]
      simp only [if_neg (asymm hc), if_pos hc]
      have hbst : isBSTb cmp (Tree.node ck cv cc cl (insertGo cmp cr k v)) = true := by
        rw [isBSTb_node_iff]
        refine ⟨hl, ?_, hbl, isBSTb_insertGo cmp hv k v cr hbr⟩
        intro x hx
        rcases keys_insertGo cmp k v cr x hx with h2 | h2
        · exact hr x h2
        · rw [h2]; exact hc
      rw [searchGo_fixUp cmp hv _ hbst k]
      have hne : cmp k ck ≠ 0 := by omega
      have hnlt : ¬ cmp k ck < 0 := by omega
      simp [searchGo, hne, hnlt, ihr hbr]

theorem searchGo_insertGo_other (cmp : K → K → Int) (hv : ValidOrder cmp) (k q : K) (v : V)
    (hne : cmp q k ≠ 0) :
    ∀ t : Tree K V, isBSTb cmp t = true →
      searchGo cmp (insertGo cmp t k v) q = searchGo cmp t q := by
  intro t
  induction t with
  | nil =>
    intro _
    simp [insertGo, searchGo, hne]
  | node ck cv cc cl cr ihl ihr =>
    intro h
    have hb := h
    rw [isBSTb_node_iff] at hb
    obtain ⟨hl, hr, hbl, hbr⟩ := hb
    rcases lt_trichotomy (cmp k ck) 0 with hc | hc | hc
    · rw [insertGo]
      simp only [hc, if_pos]
      have hbst : isBSTb cmp (Tree.node ck cv cc (insertGo cmp cl k v) cr) = true := by
        rw [isBSTb_node_iff]
        refine ⟨?_, hr, isBSTb_insertGo cmp hv k v cl hbl, hbr⟩
        intro x hx
        rcases keys_insertGo cmp k v cl x hx with h2 | h2
        · exact hl x h2
        · rw [h2]; exact hc
      rw [searchGo_fixUp cmp hv _ hbst q]
      rcases lt_trichotomy (cmp q ck) 0 with hq | hq | hq
      · simp [searchGo, hq, hq.ne, ihl hbl]
      · simp [searchGo, hq]
      · have h2ne : cmp q ck ≠ 0 := by omega
        have h2nlt : ¬ cmp q ck < 0 := by omega
        simp [searchGo, h2ne, h2nlt]
    · rw [insertGo]
      simp only [hc, lt_irrefl, if_false, if_neg (lt_irrefl 0)]
      have hbst : isBSTb cmp (Tree.node ck v cc cl cr) = true := by
        rw [isBSTb_node_iff]; exact ⟨hl, hr, hbl, hbr⟩
      rw [searchGo_fixUp cmp hv _ hbst q]
      have hkck : k = ck := (hv.eq_iff k ck).mp hc
      have hqck : cmp q ck ≠ 0 := by rw [← hkck]; exact hne
      rcases lt_trichotomy (cmp q ck) 0 with hq | hq | hq
      · simp [searchGo, hq, hq.ne]
      · exact absurd hq hqck
      · have h2nlt : ¬ cmp q ck < 0 := by omega
        simp [searchGo, hqck, h2nlt]
    · rw [insertGo]
      simp only [if_neg (asymm hc), if_pos hc]
      have hbst : isBSTb cmp (Tree.node ck cv cc cl (insertGo cmp cr k v)) = true := by
        rw [isBSTb_node_iff]
        refine ⟨hl, ?_, hbl, isBSTb_insertGo cmp hv k v cr hbr⟩
        intro x hx
        rcases keys_insertGo cmp k v cr x hx with h2 | h2
        · exact hr x h2
        · rw [h2]; exact hc
      rw [searchGo_fixUp cmp hv _ hbst q]
      rcases lt_trichotomy (cmp q ck) 0 with hq | hq | hq
      · simp [searchGo, hq, hq.ne]
      · simp [searchGo, hq]
      · have h2ne : cmp q ck ≠ 0 := by omega
        have h2nlt : ¬ cmp q ck < 0 := by omega
        simp [searchGo, h2ne, h2nlt, ihr hbr]

/-! ### Insert sequences at the tree level -/

theorem insertAll_comparator (l : List (K × V)) :
    ∀ m : TreeMap K V, (insertAll m l).comparator = m.comparator := by
  induction l with
  | nil => intro m; rfl
  | cons kv rest ih => intro m; exact ih (m.Insert kv.1 kv.2)

theorem insertAll_root (l : List (K × V)) :
    ∀ m : TreeMap K V, (insertAll m l).root = insertAllT m.comparator m.root l := by
  induction l with
  | nil => intro m; rfl
  | cons kv rest ih =>
    intro m
    have h1 : insertAll m (kv :: rest) = insertAll (m.Insert kv.1 kv.2) rest := rfl
    rw [h1, ih]
    rfl

theorem isBSTb_insertAllT (cmp : K → K → Int) (hv : ValidOrder cmp) (l : List (K × V)) :
    ∀ t : Tree K V, isBSTb cmp t = true → isBSTb cmp (insertAllT cmp t l) = true := by
  induction l with
  | nil => intro t h; exact h
  | cons kv rest ih =>
    intro t h
    have h1 : insertAllT cmp t (kv :: rest)
        = insertAllT cmp (blacken (insertGo cmp t kv.1 kv.2)) rest := rfl
    rw [h1]
    exact ih _ (by rw [isBSTb_blacken]; exact isBSTb_insertGo cmp hv kv.1 kv.2 t h)

theorem searchGo_insertAllT_other (cmp : K → K → Int) (hv : ValidOrder cmp) (q : K)
    (l : List (K × V)) :
    ∀ t : Tree K V, isBSTb cmp t = true → (∀ kv ∈ l, cmp q kv.1 ≠ 0) →
      searchGo cmp (insertAllT cmp t l) q = searchGo cmp t q := by
  induction l with
  | nil => intro t _ _; rfl
  | cons kv rest ih =>
    intro t h hq
    have h1 : insertAllT cmp t (kv :: rest)
        = insertAllT cmp (blacken (insertGo cmp t kv.1 kv.2)) rest := rfl
    rw [h1, ih _ (by rw [isBSTb_blacken]; exact isBSTb_insertGo cmp hv kv.1 kv.2 t h)
      (fun b hb => hq b (List.mem_cons_of_mem kv hb))]
    rw [searchGo_blacken]
    exact searchGo_insertGo_other cmp hv kv.1 q kv.2 (hq kv (List.mem_cons_self kv rest)) t h

theorem searchGo_insertAllT_found (cmp : K → K → Int) (hv : ValidOrder cmp) (k : K) (v : V)
    (l : List (K × V)) :
    ∀ t : Tree K V, isBSTb cmp t = true → (k, v) ∈ l →
      l.Pairwise (fun a b => a.1 ≠ b.1) →
      searchGo cmp (insertAllT cmp t l) k = some v := by
  induction l with
  | nil => intro t _ hmem _; exact absurd hmem (List.not_mem_nil _)
  | cons kv rest ih =>
    intro t hb hmem hpw
    have h1 : insertAllT cmp t (kv :: rest)
        = insertAllT cmp (blacken (insertGo cmp t kv.1 kv.2)) rest := rfl
    have hb2 : isBSTb cmp (blacken (insertGo cmp t kv.1 kv.2)) = true := by
      rw [isBSTb_blacken]; exact isBSTb_insertGo cmp hv kv.1 kv.2 t hb
    rw [List.pairwise_cons] at hpw
    rcases List.mem_cons.mp hmem with heq | hmem2
    · have h1k : kv.1 = k := by rw [← heq]
      have h1v : kv.2 = v := by rw [← heq]
      rw [h1]
      have hne : ∀ b ∈ rest, cmp k b.1 ≠ 0 := by
        intro b hbmem h0
        exact (h1k ▸ hpw.1 b hbmem) ((hv.eq_iff k b.1).mp h0)
      rw [searchGo_insertAllT_other cmp hv k rest _ hb2 hne, searchGo_blacken]
      rw [← h1k, ← h1v]
      exact searchGo_insertGo_self cmp hv kv.1 kv.2 t hb
    · exact h1 ▸ ih _ hb2 hmem2 hpw.2

/-! ### Claim C2 -/

/-- C2: after inserting any sequence of pairs with pairwise distinct keys
into a fresh custom-comparator tree, `Search` on an inserted key yields that
key's value with `true`, and `Search` on a key outside the sequence yields
the zero value with `false`. -/
theorem search_after_insert_sequence {K V : Type} [Inhabited V] (cmp : K → K → Int)
    (hv : ValidOrder cmp) (l : List (K × V))
    (hd : l.Pairwise (fun a b => a.1 ≠ b.1)) :
    (∀ kv ∈ l, (insertAll (ofComparator cmp) l).Search kv.1 = (kv.2, true)) ∧
    (∀ q, q ∉ l.map Prod.fst →
      (insertAll (ofComparator cmp) l).Search q = (default, false)) := by
  have hc : (insertAll (ofComparator cmp) l).comparator = cmp :=
    insertAll_comparator l (ofComparator cmp)
  have hroot : (insertAll (ofComparator cmp) l).root = insertAllT cmp Tree.nil l :=
    insertAll_root l (ofComparator cmp)
  constructor
  · intro kv hmem
    have hs : searchGo cmp (insertAllT cmp Tree.nil l) kv.1 = some kv.2 :=
      searchGo_insertAllT_found cmp hv kv.1 kv.2 l Tree.nil rfl hmem hd
    unfold TreeMap.Search
    rw [hc, hroot, hs]
  · intro q hq
    have hne : ∀ kv ∈ l, cmp q kv.1 ≠ 0 := by
      intro kv hmem h0
      exact hq (List.mem_map.mpr ⟨kv, hmem, ((hv.eq_iff q kv.1).mp h0).symm⟩)
    have hs : searchGo cmp (insertAllT cmp Tree.nil l) q = searchGo cmp Tree.nil q :=
      searchGo_insertAllT_other cmp hv q l Tree.nil rfl hne
    unfold TreeMap.Search
    rw [hc, hroot, hs]
    rfl

theorem validOrder_defaultComparator {K : Type} [LinearOrder K] :
    ValidOrder (@defaultComparator K _) := by
  constructor
  · intro a b
    rcases lt_trichotomy a b with h | h | h
    · simp [defaultComparator, h, h.ne]
    · simp [defaultComparator, h]
    · simp [defaultComparator, h, h.ne', not_lt_of_gt h]
  · intro a b
    rcases lt_trichotomy a b with h | h | h
    · simp [defaultComparator, h, not_lt_of_gt h]
    · simp [defaultComparator, h]
    · simp [defaultComparator, h, not_lt_of_gt h]
  · intro a b c hab hbc
    have h1 : a < b := by
      by_contra hn
      rw [defaultComparator, if_neg hn] at hab
      split at hab <;> omega
    have h2 : b < c := by
      by_contra hn
      rw [defaultComparator, if_neg hn] at hbc
      split at hbc <;> omega
    rw [defaultComparator, if_pos (lt_trans h1 h2)]
    omega

/-- C2 witness: inserting (1, a) and (2, b) with the default comparator,
searching key 1 finds value a, and searching the absent key 3 reports the
zero value and false. -/
theorem search_after_insert_sequence_witness :
    (insertAll (ofComparator (@defaultComparator Int _)) [(1, "a"), (2, "b")]).Search 1
        = ("a", true) ∧
    (insertAll (ofComparator (@defaultComparator Int _)) [(1, "a"), (2, "b")]).Search 3
        = ("", false) := by
  have h := search_after_insert_sequence (@defaultComparator Int _)
    validOrder_defaultComparator [(1, "a"), (2, "b")] (by decide)
  exact ⟨h.1 (1, "a") (by simp), h.2 3 (by decide)⟩

/-! ### Lemmas for the duplicate-key claim (C9) -/

theorem noRedRight_node_iff (k : K) (v : V) (c : Bool) (l r : Tree K V) :
    noRedRight (.node k v c l r) = true ↔
      r.isRed = false ∧ noRedRight l = true ∧ noRedRight r = true := by
  simp [noRedRight, Bool.and_eq_true, Bool.not_eq_true', and_assoc]

theorem noRedRedLeft_node_iff (k : K) (v : V) (c : Bool) (l r : Tree K V) :
    noRedRedLeft (.node k v c l r) = true ↔
      (l.isRed && l.left.isRed) = false ∧
      noRedRedLeft l = true ∧ noRedRedLeft r = true := by
  simp only [noRedRedLeft, Bool.and_eq_true, Bool.not_eq_true', and_assoc]

theorem keys_overwrite (cmp : K → K → Int) (k : K) (v : V) :
    ∀ t : Tree K V, (overwrite cmp k v t).keys = t.keys := by
  intro t
  induction t with
  | nil => rfl
  | node ck cv cc cl cr ihl ihr =>
    rw [overwrite]
    split
    · simp [Tree.keys, ihl]
    · split
      · simp [Tree.keys, ihr]
      · simp [Tree.keys]

theorem skeleton_overwrite (cmp : K → K → Int) (k : K) (v : V) :
    ∀ t : Tree K V, skeleton (overwrite cmp k v t) = skeleton t := by
  intro t
  induction t with
  | nil => rfl
  | node ck cv cc cl cr ihl ihr =>
    rw [overwrite]
    split
    · simp [skeleton, ihl]
    · split
      · simp [skeleton, ihr]
      · simp [skeleton]

theorem isRed_overwrite (cmp : K → K → Int) (k : K) (v : V) (t : Tree K V) :
    (overwrite cmp k v t).isRed = t.isRed := by
  cases t with
  | nil => rfl
  | node ck cv cc cl cr =>
    rw [overwrite]
    split
    · rfl
    · split <;> rfl

theorem left_isRed_overwrite (cmp : K → K → Int) (k : K) (v : V) (t : Tree K V) :
    (overwrite cmp k v t).left.isRed = t.left.isRed := by
  cases t with
  | nil => rfl
  | node ck cv cc cl cr =>
    rw [overwrite]
    split
    · simp [Tree.left, isRed_overwrite]
    · split <;> rfl

theorem searchGo_overwrite_self (cmp : K → K → Int) (k : K) (v : V) :
    ∀ t : Tree K V, (searchGo cmp t k).isSome = true →
      searchGo cmp (overwrite cmp k v t) k = some v := by
  intro t
  induction t with
  | nil => intro hs; simp [searchGo] at hs
  | node ck cv cc cl cr ihl ihr =>
    intro hs
    rcases lt_trichotomy (cmp k ck) 0 with hc | hc | hc
    · have hs2 : (searchGo cmp cl k).isSome = true := by
        simpa [searchGo, hc.ne, hc] using hs
      rw [overwrite, if_pos hc]
      simp [searchGo, hc.ne, hc, ihl hs2]
    · rw [overwrite, if_neg (by omega), if_neg (by omega)]
      simp [searchGo, hc]
    · have hs2 : (searchGo cmp cr k).isSome = true := by
        simpa [searchGo, show cmp k ck ≠ 0 by omega,
          show ¬ cmp k ck < 0 by omega] using hs
      rw [overwrite, if_neg (by omega), if_pos hc]
      simp [searchGo, show cmp k ck ≠ 0 by omega, show ¬ cmp k ck < 0 by omega, ihr hs2]

theorem fixUp_eq_self (t : Tree K V)
    (h1 : (t.right.isRed && !t.left.isRed) = false)
    (h2 : (t.left.isRed && t.left.left.isRed) = false)
    (h3 : (t.left.isRed && t.right.isRed) = false) : fixUp t = t := by
  unfold fixUp
  simp only [h1, h2, h3, if_false, Bool.false_eq_true]

/-- On a tree whose subtree invariants hold and whose key set already
contains `k`, the recursive insert only overwrites the value at `k`. -/
theorem insertGo_overwrite (cmp : K → K → Int) (k : K) (v : V) :
    ∀ t : Tree K V, noRedRight t = true → noRedRedLeft t = true →
      (searchGo cmp t k).isSome = true →
      insertGo cmp t k v = overwrite cmp k v t := by
  intro t
  induction t with
  | nil => intro _ _ hs; simp [searchGo] at hs
  | node ck cv cc cl cr ihl ihr =>
    intro hrr hrl hs
    rw [noRedRight_node_iff] at hrr
    obtain ⟨hcr, hrrl, hrrr⟩ := hrr
    rw [noRedRedLeft_node_iff] at hrl
    obtain ⟨hll, hrll, hrlr⟩ := hrl
    rcases lt_trichotomy (cmp k ck) 0 with hc | hc | hc
    · have hs2 : (searchGo cmp cl k).isSome = true := by
        simpa [searchGo, hc.ne, hc] using hs
      rw [insertGo]
      simp only [hc, if_pos]
      rw [ihl hrrl hrll hs2]
      rw [fixUp_eq_self]
      · rw [overwrite, if_pos hc]
      · simp [Tree.right, hcr]
      · show ((overwrite cmp k v cl).isRed && (overwrite cmp k v cl).left.isRed) = false
        rw [isRed_overwrite, left_isRed_overwrite]
        exact hll
      · show ((overwrite cmp k v cl).isRed && cr.isRed) = false
        simp [hcr]
    · rw [insertGo]
      simp only [hc, lt_irrefl, if_false, if_neg (lt_irrefl 0)]
      rw [fixUp_eq_self]
      · rw [overwrite, if_neg (by omega), if_neg (by omega)]
      · simp [Tree.right, hcr]
      · exact hll
      · simp [Tree.right, hcr]
    · have hs2 : (searchGo cmp cr k).isSome = true := by
        simpa [searchGo, show cmp k ck ≠ 0 by omega,
          show ¬ cmp k ck < 0 by omega] using hs
      rw [insertGo]
      simp only [if_neg (asymm hc), if_pos hc]
      rw [ihr hrrr hrlr hs2]
      rw [fixUp_eq_self]
      · rw [overwrite, if_neg (by omega), if_pos hc]
      · show ((overwrite cmp k v cr).isRed && !Tree.isRed cl) = false
        rw [isRed_overwrite]
        simp [hcr]
      · exact hll
      · show (Tree.isRed cl && (overwrite cmp k v cr).isRed) = false
        rw [isRed_overwrite]
        simp [hcr]

theorem blacken_of_not_red (t : Tree K V) (h : t.isRed = false) : blacken t = t := by
  cases t with
  | nil => rfl
  | node k v c l r =>
    simp [Tree.isRed] at h
    rw [blacken, h]
    rfl

/-! ### Claim C9 -/

/-- C9: inserting a key already present overwrites the stored value in
place: the new root equals the claim-side `overwrite` of the old root, so
keys, node structure and colors are unchanged, and searching that key
afterwards returns the new value. -/
theorem insert_existing_key_overwrites {K V : Type} [Inhabited V]
    (m : TreeMap K V) (k : K) (v : V)
    (h1 : noRedRight m.root = true) (h2 : noRedRedLeft m.root = true)
    (h3 : m.root.isRed = false)
    (h4 : (searchGo m.comparator m.root k).isSome = true) :
    (m.Insert k v).root = overwrite m.comparator k v m.root ∧
    skeleton (m.Insert k v).root = skeleton m.root ∧
    ((m.Insert k v).root).keys = m.root.keys ∧
    (m.Insert k v).Search k = (v, true) := by
  have hroot : (m.Insert k v).root = overwrite m.comparator k v m.root := by
    show blacken (insertGo m.comparator m.root k v) = _
    rw [insertGo_overwrite m.comparator k v m.root h1 h2 h4]
    exact blacken_of_not_red _ (by rw [isRed_overwrite]; exact h3)
  refine ⟨hroot, ?_, ?_, ?_⟩
  · rw [hroot, skeleton_overwrite]
  · rw [hroot, keys_overwrite]
  · have hcmp : (m.Insert k v).comparator = m.comparator := rfl
    unfold TreeMap.Search
    rw [hcmp, hroot, searchGo_overwrite_self m.comparator k v m.root h4]

/-- C9 witness: on the two-element tree from inserting (1, a) then (2, b),
re-inserting key 1 with value z keeps the skeleton and keys and makes
search return z. -/
theorem insert_existing_key_overwrites_witness :
    ((insertAll (New Int String) [(1, "a"), (2, "b")]).Insert 1 "z").Search 1
      = ("z", true) :=
  (insert_existing_key_overwrites (insertAll (New Int String) [(1, "a"), (2, "b")])
    1 "z" (by decide) (by decide) (by decide) (by decide)).2.2.2

/-! ### Lemmas for the structural-invariant claim (C1) -/

theorem good_isRed {t : Tree K V} {c : Bool} {n : Nat} (h : Good t c n) : t.isRed = c := by
  cases h <;> rfl

theorem good_red_inv {t : Tree K V} {n : Nat} (h : Good t red n) :
    ∃ k v l r, t = Tree.node k v red l r ∧ Good l black n ∧ Good r black n := by
  cases h with
  | redNode k v hl hr => exact ⟨k, v, _, _, rfl, hl, hr⟩

theorem good_no_infra {t : Tree K V} {c : Bool} {n : Nat} (h : Good t c n) :
    (t.isRed && t.left.isRed) = false := by
  cases h with
  | nil => rfl
  | blackNode k v hl hr => rfl
  | redNode k v hl hr => exact good_isRed hl

theorem fixUp_eq_rotateLeft (t : Tree K V)
    (h1 : (t.right.isRed && !t.left.isRed) = true)
    (h2 : ((rotateLeft t).left.isRed && (rotateLeft t).left.left.isRed) = false)
    (h3 : ((rotateLeft t).left.isRed && (rotateLeft t).right.isRed) = false) :
    fixUp t = rotateLeft t := by
  unfold fixUp
  simp [h1, h2, h3]

theorem fixUp_eq_flip_rotateRight (t : Tree K V)
    (h1 : (t.right.isRed && !t.left.isRed) = false)
    (h2 : (t.left.isRed && t.left.left.isRed) = true)
    (h3 : ((rotateRight t).left.isRed && (rotateRight t).right.isRed) = true) :
    fixUp t = flipColors (rotateRight t) := by
  unfold fixUp
  simp [h1, h2, h3]

theorem fixUp_eq_flip (t : Tree K V)
    (h1 : (t.right.isRed && !t.left.isRed) = false)
    (h2 : (t.left.isRed && t.left.left.isRed) = false)
    (h3 : (t.left.isRed && t.right.isRed) = true) :
    fixUp t = flipColors t := by
  unfold fixUp
  simp [h1, h2, h3]

/-- The insert fix-point lemma: on a well-formed subtree, the recursive
insert preserves black height and well-formedness, except that inserting
into a red-rooted subtree may return the transient red-red-left shape that
the parent's fix-up ladder resolves. -/
theorem insertGo_good (cmp : K → K → Int) (k : K) (v : V) :
    ∀ {t : Tree K V} {c : Bool} {n : Nat}, Good t c n →
      (c = black → ∃ c2, Good (insertGo cmp t k v) c2 n) ∧
      (c = red → Good (insertGo cmp t k v) red n ∨ Infra (insertGo cmp t k v) n) := by
  intro t c n h
  induction h with
  | nil =>
    refine ⟨fun _ => ⟨red, ?_⟩, fun hx => absurd hx (by decide)⟩
    rw [insertGo]
    exact Good.redNode k v Good.nil Good.nil
  | blackNode k0 v0 hl hr ihl ihr =>
    rename_i l r cl n0
    refine ⟨fun _ => ?_, fun hx => absurd hx (by decide)⟩
    have hrred : r.isRed = false := good_isRed hr
    rcases lt_trichotomy (cmp k k0) 0 with hc | hc | hc
    · rw [insertGo]
      simp only [hc, if_pos]
      have hsplit : (∃ c2, Good (insertGo cmp l k v) c2 n0) ∨
          Infra (insertGo cmp l k v) n0 := by
        cases cl with
        | false => exact Or.inl (ihl.1 rfl)
        | true =>
          rcases ihl.2 rfl with hg | hi
          · exact Or.inl ⟨red, hg⟩
          · exact Or.inr hi
      rcases hsplit with ⟨c2, hgl'⟩ | hinf
      · have e1 : (r.isRed && !(insertGo cmp l k v).isRed) = false := by simp [hrred]
        have e2 : ((insertGo cmp l k v).isRed && (insertGo cmp l k v).left.isRed) = false :=
          good_no_infra hgl'
        have e3 : ((insertGo cmp l k v).isRed && r.isRed) = false := by simp [hrred]
        rw [fixUp_eq_self (Tree.node k0 v0 black (insertGo cmp l k v) r) e1 e2 e3]
        exact ⟨black, Good.blackNode k0 v0 hgl' hr⟩
      · rcases hinf with ⟨lk, lv, la, lb, heq, hla, hlb⟩
        rcases good_red_inv hla with ⟨ak, av, al, ar, heqa, hal, har⟩
        subst heqa
        rw [heq]
        have e1 : (r.isRed
            && !(Tree.node lk lv red (Tree.node ak av red al ar) lb).isRed) = false := by
          simp [hrred]
        have e2 : ((Tree.node lk lv red (Tree.node ak av red al ar) lb).isRed
            && (Tree.node ak av red al ar).isRed) = true := rfl
        have e3 : (((rotateRight
            (Tree.node k0 v0 black (Tree.node lk lv red (Tree.node ak av red al ar) lb) r))).left.isRed
            && ((rotateRight
            (Tree.node k0 v0 black (Tree.node lk lv red (Tree.node ak av red al ar) lb) r))).right.isRed)
            = true := rfl
        rw [fixUp_eq_flip_rotateRight
          (Tree.node k0 v0 black (Tree.node lk lv red (Tree.node ak av red al ar) lb) r) e1 e2 e3]
        exact ⟨red, Good.redNode lk lv (Good.blackNode ak av hal har)
          (Good.blackNode k0 v0 hlb hr)⟩
    · rw [insertGo]
      simp only [hc, lt_irrefl, if_false, if_neg (lt_irrefl 0)]
      have e1 : (r.isRed && !l.isRed) = false := by simp [hrred]
      have e2 : (l.isRed && l.left.isRed) = false := good_no_infra hl
      have e3 : (l.isRed && r.isRed) = false := by simp [hrred]
      rw [fixUp_eq_self (Tree.node k0 v black l r) e1 e2 e3]
      exact ⟨black, Good.blackNode k0 v hl hr⟩
    · rw [insertGo]
      simp only [if_neg (asymm hc), if_pos hc]
      rcases ihr.1 rfl with ⟨c2, hgr'⟩
      cases c2 with
      | false =>
        have hgrred : (insertGo cmp r k v).isRed = false := good_isRed hgr'
        have e1 : ((insertGo cmp r k v).isRed && !l.isRed) = false := by simp [hgrred]
        have e2 : (l.isRed && l.left.isRed) = false := good_no_infra hl
        have e3 : (l.isRed && (insertGo cmp r k v).isRed) = false := by simp [hgrred]
        rw [fixUp_eq_self (Tree.node k0 v0 black l (insertGo cmp r k v)) e1 e2 e3]
        exact ⟨black, Good.blackNode k0 v0 hl hgr'⟩
      | true =>
        rcases good_red_inv hgr' with ⟨rk, rv, ra, rb, heq, hra, hrb⟩
        rw [heq]
        cases cl with
        | false =>
          have hlred : l.isRed = false := good_isRed hl
          have e1 : ((Tree.node rk rv red ra rb).isRed && !l.isRed) = true := by
            show (!l.isRed) = true
            simp [hlred]
          have e2 : ((rotateLeft
              (Tree.node k0 v0 black l (Tree.node rk rv red ra rb))).left.isRed
              && (rotateLeft
              (Tree.node k0 v0 black l (Tree.node rk rv red ra rb))).left.left.isRed)
              = false := by
            show ((Tree.node k0 v0 red l ra).isRed && l.isRed) = false
            simp [hlred]
          have e3 : ((rotateLeft
              (Tree.node k0 v0 black l (Tree.node rk rv red ra rb))).left.isRed
              && (rotateLeft
              (Tree.node k0 v0 black l (Tree.node rk rv red ra rb))).right.isRed)
              = false := by
            show rb.isRed = false
            exact good_isRed hrb
          rw [fixUp_eq_rotateLeft (Tree.node k0 v0 black l (Tree.node rk rv red ra rb)) e1 e2 e3]
          exact ⟨black, Good.blackNode rk rv (Good.redNode k0 v0 hl hra) hrb⟩
        | true =>
          rcases good_red_inv hl with ⟨lk, lv, la, lb, heql, hla, hlb⟩
          subst heql
          have e1 : ((Tree.node rk rv red ra rb).isRed
              && !(Tree.node lk lv red la lb).isRed) = false := rfl
          have e2 : ((Tree.node lk lv red la lb).isRed && la.isRed) = false := by
            show la.isRed = false
            exact good_isRed hla
          have e3 : ((Tree.node lk lv red la lb).isRed
              && (Tree.node rk rv red ra rb).isRed) = true := rfl
          rw [fixUp_eq_flip
            (Tree.node k0 v0 black (Tree.node lk lv red la lb) (Tree.node rk rv red ra rb))
            e1 e2 e3]
          exact ⟨red, Good.redNode k0 v0 (Good.blackNode lk lv hla hlb)
            (Good.blackNode rk rv hra hrb)⟩
  | redNode k0 v0 hl hr ihl ihr =>
    rename_i l r n0
    refine ⟨fun hx => absurd hx (by decide), fun _ => ?_⟩
    have hlred : l.isRed = false := good_isRed hl
    have hrred : r.isRed = false := good_isRed hr
    rcases lt_trichotomy (cmp k k0) 0 with hc | hc | hc
    · rw [insertGo]
      simp only [hc, if_pos]
      rcases ihl.1 rfl with ⟨c2, hgl'⟩
      have e1 : (r.isRed && !(insertGo cmp l k v).isRed) = false := by simp [hrred]
      have e2 : ((insertGo cmp l k v).isRed && (insertGo cmp l k v).left.isRed) = false :=
        good_no_infra hgl'
      have e3 : ((insertGo cmp l k v).isRed && r.isRed) = false := by simp [hrred]
      rw [fixUp_eq_self (Tree.node k0 v0 red (insertGo cmp l k v) r) e1 e2 e3]
      cases c2 with
      | false => exact Or.inl (Good.redNode k0 v0 hgl' hr)
      | true => exact Or.inr ⟨k0, v0, insertGo cmp l k v, r, rfl, hgl', hr⟩
    · rw [insertGo]
      simp only [hc, lt_irrefl, if_false, if_neg (lt_irrefl 0)]
      have e1 : (r.isRed && !l.isRed) = false := by simp [hrred]
      have e2 : (l.isRed && l.left.isRed) = false := good_no_infra hl
      have e3 : (l.isRed && r.isRed) = false := by simp [hrred]
      rw [fixUp_eq_self (Tree.node k0 v red l r) e1 e2 e3]
      exact Or.inl (Good.redNode k0 v hl hr)
    · rw [insertGo]
      simp only [if_neg (asymm hc), if_pos hc]
      rcases ihr.1 rfl with ⟨c2, hgr'⟩
      cases c2 with
      | false =>
        have hgrred : (insertGo cmp r k v).isRed = false := good_isRed hgr'
        have e1 : ((insertGo cmp r k v).isRed && !l.isRed) = false := by simp [hgrred]
        have e2 : (l.isRed && l.left.isRed) = false := good_no_infra hl
        have e3 : (l.isRed && (insertGo cmp r k v).isRed) = false := by simp [hgrred]
        rw [fixUp_eq_self (Tree.node k0 v0 red l (insertGo cmp r k v)) e1 e2 e3]
        exact Or.inl (Good.redNode k0 v0 hl hgr')
      | true =>
        rcases good_red_inv hgr' with ⟨rk, rv, ra, rb, heq, hra, hrb⟩
        rw [heq]
        have e1 : ((Tree.node rk rv red ra rb).isRed && !l.isRed) = true := by
          show (!l.isRed) = true
          simp [hlred]
        have e2 : ((rotateLeft
            (Tree.node k0 v0 red l (Tree.node rk rv red ra rb))).left.isRed
            && (rotateLeft
            (Tree.node k0 v0 red l (Tree.node rk rv red ra rb))).left.left.isRed)
            = false := by
          show ((Tree.node k0 v0 red l ra).isRed && l.isRed) = false
          simp [hlred]
        have e3 : ((rotateLeft
            (Tree.node k0 v0 red l (Tree.node rk rv red ra rb))).left.isRed
            && (rotateLeft
            (Tree.node k0 v0 red l (Tree.node rk rv red ra rb))).right.isRed)
            = false := by
          show rb.isRed = false
          exact good_isRed hrb
        rw [fixUp_eq_rotateLeft (Tree.node k0 v0 red l (Tree.node rk rv red ra rb)) e1 e2 e3]
        exact Or.inr ⟨rk, rv, Tree.node k0 v0 red l ra, rb, rfl,
          Good.redNode k0 v0 hl hra, hrb⟩

theorem good_noRedRight {t : Tree K V} {c : Bool} {n : Nat} (h : Good t c n) :
    noRedRight t = true := by
  induction h with
  | nil => rfl
  | blackNode k0 v0 hl hr ihl ihr =>
    rw [noRedRight_node_iff]
    exact ⟨good_isRed hr, ihl, ihr⟩
  | redNode k0 v0 hl hr ihl ihr =>
    rw [noRedRight_node_iff]
    exact ⟨good_isRed hr, ihl, ihr⟩

theorem good_noRedRedLeft {t : Tree K V} {c : Bool} {n : Nat} (h : Good t c n) :
    noRedRedLeft t = true := by
  induction h with
  | nil => rfl
  | blackNode k0 v0 hl hr ihl ihr =>
    rw [noRedRedLeft_node_iff]
    exact ⟨good_no_infra hl, ihl, ihr⟩
  | redNode k0 v0 hl hr ihl ihr =>
    rw [noRedRedLeft_node_iff]
    exact ⟨good_no_infra hl, ihl, ihr⟩

theorem good_blackCounts {t : Tree K V} {c : Bool} {n : Nat} (h : Good t c n) :
    ∀ x ∈ blackCounts t, x = n := by
  induction h with
  | nil =>
    intro x hx
    simpa [blackCounts] using hx
  | blackNode k0 v0 hl hr ihl ihr =>
    intro x hx
    simp only [blackCounts, black, if_false, List.mem_map, List.mem_append,
      Bool.false_eq_true] at hx
    rcases hx with ⟨y, hy | hy, hxy⟩
    · rw [← hxy, ihl y hy]
    · rw [← hxy, ihr y hy]
  | redNode k0 v0 hl hr ihl ihr =>
    intro x hx
    simp only [blackCounts, red, if_true, List.mem_map, List.mem_append] at hx
    rcases hx with ⟨y, hy | hy, hxy⟩
    · rw [← hxy, ihl y hy]; omega
    · rw [← hxy, ihr y hy]; omega


theorem allSame_of_forall {l : List Nat} {n : Nat} (h : ∀ x ∈ l, x = n) :
    allSame l = true := by
  cases l with
  | nil => rfl
  | cons x xs =>
    rw [allSame, List.all_eq_true]
    intro y hy
    rw [h y (List.mem_cons_of_mem x hy), h x (List.mem_cons_self x xs)]
    exact beq_self_eq_true n

/-- The top-level `Insert` body keeps the root well-formed and black. -/
theorem good_insert_root (cmp : K → K → Int) (k : K) (v : V) {t : Tree K V} {n : Nat}
    (h : Good t black n) :
    ∃ n2, Good (blacken (insertGo cmp t k v)) black n2 := by
  rcases (insertGo_good cmp k v h).1 rfl with ⟨c2, hg⟩
  cases c2 with
  | false =>
    rw [blacken_of_not_red _ (good_isRed hg)]
    exact ⟨n, hg⟩
  | true =>
    rcases good_red_inv hg with ⟨k2, v2, l2, r2, heq, hl2, hr2⟩
    rw [heq]
    exact ⟨n + 1, Good.blackNode k2 v2 hl2 hr2⟩

theorem good_insertAllT (cmp : K → K → Int) (l : List (K × V)) :
    ∀ {t : Tree K V} {n : Nat}, Good t black n →
      ∃ n2, Good (insertAllT cmp t l) black n2 := by
  induction l with
  | nil => intro t n h; exact ⟨n, h⟩
  | cons kv rest ih =>
    intro t n h
    rcases good_insert_root cmp kv.1 kv.2 h with ⟨n2, h2⟩
    exact ih h2

/-! ### Claim C1 -/

/-- C1: every tree obtained from an empty tree by a finite sequence of
`Insert` calls under a valid ordering strategy satisfies the five structural
invariants: BST ordering, no red right child, no red-red left chain, equal
black-link count on every root-to-absent-child path, and a black root. -/
theorem insert_sequence_invariants {K V : Type} (cmp : K → K → Int)
    (hv : ValidOrder cmp) (l : List (K × V)) :
    isBSTb cmp (insertAll (ofComparator cmp) l).root = true ∧
    noRedRight (insertAll (ofComparator cmp) l).root = true ∧
    noRedRedLeft (insertAll (ofComparator cmp) l).root = true ∧
    allSame (blackCounts (insertAll (ofComparator cmp) l).root) = true ∧
    (insertAll (ofComparator cmp) l).root.isRed = false := by
  have hroot : (insertAll (ofComparator cmp) l).root = insertAllT cmp Tree.nil l :=
    insertAll_root l (ofComparator cmp)
  rcases good_insertAllT cmp l Good.nil with ⟨n, hg⟩
  rw [hroot]
  refine ⟨isBSTb_insertAllT cmp hv l Tree.nil rfl, good_noRedRight hg,
    good_noRedRedLeft hg, allSame_of_forall (good_blackCounts hg), good_isRed hg⟩

/-- C1 witness: the nine-key insertion sequence exercised by the
repository's own test satisfies all five invariants. -/
theorem insert_sequence_invariants_witness :
    noRedRight (insertAll (ofComparator (@defaultComparator Int _))
      [(1, "a"), (4, "d"), (3, "c"), (2, "b"), (5, "e"), (6, "f"), (9, "i"),
        (8, "h"), (7, "g")]).root = true :=
  (insert_sequence_invariants (@defaultComparator Int _) validOrder_defaultComparator
    [(1, "a"), (4, "d"), (3, "c"), (2, "b"), (5, "e"), (6, "f"), (9, "i"),
      (8, "h"), (7, "g")]).2.1

/-! ### Iterator lemmas (C3, C5, C6) -/

theorem nodeAt_append (p q : List Dir) :
    ∀ t : Tree K V, nodeAt t (p ++ q) = (nodeAt t p).bind (fun u => nodeAt u q) := by
  induction p with
  | nil =>
    intro t
    cases t with
    | nil => rfl
    | node k v c l r => rfl
  | cons d p2 ih =>
    intro t
    cases t with
    | nil => rfl
    | node k v c l r => cases d <;> simp [nodeAt, ih]

theorem nodeAt_notNil {p : List Dir} :
    ∀ {t n : Tree K V}, nodeAt t p = some n → n.isNil = false := by
  induction p with
  | nil =>
    intro t n h
    cases t with
    | nil => exact absurd h (by simp [nodeAt])
    | node k v c l r =>
      rw [nodeAt] at h
      cases h
      rfl
  | cons d p2 ih =>
    intro t n h
    cases t with
    | nil => exact absurd h (by simp [nodeAt])
    | node k v c l r => cases d <;> exact ih h

theorem afterSub_append (q : List Dir) :
    ∀ (p : List Dir) (t u : Tree K V), nodeAt t p = some u →
      afterSub t (p ++ q) = afterSub u q ++ afterSub t p := by
  intro p
  induction p with
  | nil =>
    intro t u h
    cases t with
    | nil => exact absurd h (by simp [nodeAt])
    | node k v c l r =>
      rw [nodeAt] at h
      cases h
      have h2 : afterSub (Tree.node k v c l r) [] = [] := rfl
      rw [h2, List.append_nil, List.nil_append]
  | cons d p2 ih =>
    intro t u h
    cases t with
    | nil => exact absurd h (by simp [nodeAt])
    | node k v c l r =>
      cases d with
      | left =>
        have h2 : nodeAt l p2 = some u := h
        show afterSub l (p2 ++ q) ++ k :: r.keys = afterSub u q ++ (afterSub l p2 ++ k :: r.keys)
        rw [ih l u h2, List.append_assoc]
      | right =>
        have h2 : nodeAt r p2 = some u := h
        show afterSub r (p2 ++ q) = afterSub u q ++ afterSub r p2
        exact ih r u h2

theorem succKeys_eq {t : Tree K V} {p : List Dir} {n : Tree K V}
    (h : nodeAt t p = some n) : succKeys t p = n.right.keys ++ afterSub t p := by
  unfold succKeys
  rw [h]

/-- Descending to the leftmost node decomposes the in-order key sequence:
its key is the head, and `succKeys` at that position is the tail. -/
theorem leftPath_spec :
    ∀ t : Tree K V, t.isNil = false →
      ∃ n k, nodeAt t (leftPath t) = some n ∧ n.key? = some k ∧
        t.keys = k :: succKeys t (leftPath t) := by
  intro t
  induction t with
  | nil => intro h; simp [Tree.isNil] at h
  | node k0 v0 c0 l0 r0 ihl ihr =>
    intro _
    cases l0 with
    | nil =>
      refine ⟨Tree.node k0 v0 c0 Tree.nil r0, k0, rfl, rfl, ?_⟩
      have hlp : leftPath (Tree.node k0 v0 c0 Tree.nil r0) = [] := rfl
      rw [hlp]
      rw [succKeys_eq (show nodeAt (Tree.node k0 v0 c0 Tree.nil r0) [] = some _ from rfl)]
      show Tree.keys Tree.nil ++ k0 :: r0.keys = k0 :: (r0.keys ++ afterSub _ [])
      simp [Tree.keys, afterSub]
    | node lk lv lc ll lr =>
      rcases ihl rfl with ⟨n, kk, hn, hk, hkeys⟩
      have hlp : leftPath (Tree.node k0 v0 c0 (Tree.node lk lv lc ll lr) r0)
          = Dir.left :: leftPath (Tree.node lk lv lc ll lr) := rfl
      refine ⟨n, kk, ?_, hk, ?_⟩
      · rw [hlp]; exact hn
      · rw [hlp]
        have h1 : nodeAt (Tree.node k0 v0 c0 (Tree.node lk lv lc ll lr) r0)
            (Dir.left :: leftPath (Tree.node lk lv lc ll lr)) = some n := hn
        rw [succKeys_eq h1]
        have h2 : afterSub (Tree.node k0 v0 c0 (Tree.node lk lv lc ll lr) r0)
            (Dir.left :: leftPath (Tree.node lk lv lc ll lr))
            = afterSub (Tree.node lk lv lc ll lr) (leftPath (Tree.node lk lv lc ll lr))
              ++ k0 :: r0.keys := rfl
        rw [h2]
        show (Tree.node lk lv lc ll lr).keys ++ k0 :: r0.keys = _
        rw [hkeys, succKeys_eq hn]
        simp [List.append_assoc]

theorem keys_length_size : ∀ t : Tree K V, t.keys.length = t.size := by
  intro t
  induction t with
  | nil => rfl
  | node k v c l r ihl ihr => simp [Tree.keys, Tree.size, ihl, ihr]; omega

theorem afterSub_nil_path (u : Tree K V) : afterSub u [] = [] := by
  cases u <;> rfl

theorem afterSub_single_right (u : Tree K V) : afterSub u [Dir.right] = [] := by
  cases u with
  | nil => rfl
  | node k v c l r =>
    show afterSub r [] = []
    exact afterSub_nil_path r

/-- The backtracking loop of `Next` either reports off-the-end exactly when
nothing follows the current subtree, or lands on the ancestor holding the
next in-order key. -/
theorem backUpNext_spec :
    ∀ (rp : List Dir) (d : Dir) (t n : Tree K V),
      nodeAt t ((d :: rp).reverse) = some n →
      (backUpNext d rp = (none, false) ∧ afterSub t ((d :: rp).reverse) = []) ∨
      (∃ q m mk, backUpNext d rp = (some q, true) ∧ nodeAt t q.reverse = some m ∧
        m.key? = some mk ∧
        afterSub t ((d :: rp).reverse) = mk :: succKeys t q.reverse) := by
  intro rp
  induction rp with
  | nil =>
    intro d t n h
    cases d with
    | left =>
      right
      have hrev : ([Dir.left] : List Dir).reverse = [Dir.left] := rfl
      rw [hrev] at h ⊢
      cases t with
      | nil => exact absurd h (by simp [nodeAt])
      | node k v c l r =>
        refine ⟨[], Tree.node k v c l r, k, rfl, rfl, rfl, ?_⟩
        have h1 : afterSub (Tree.node k v c l r) [Dir.left]
            = afterSub l [] ++ k :: r.keys := rfl
        rw [h1, afterSub_nil_path]
        rw [succKeys_eq (show nodeAt (Tree.node k v c l r) ([] : List Dir).reverse
          = some (Tree.node k v c l r) from rfl)]
        show k :: r.keys = k :: (r.keys ++ afterSub (Tree.node k v c l r) ([] : List Dir).reverse)
        rw [show (([] : List Dir)).reverse = ([] : List Dir) from rfl, afterSub_nil_path,
          List.append_nil]
    | right =>
      left
      refine ⟨rfl, ?_⟩
      have hrev : ([Dir.right] : List Dir).reverse = [Dir.right] := rfl
      rw [hrev]
      exact afterSub_single_right t
  | cons d2 rest ih =>
    intro d t n h
    have hrev : ∀ dd : Dir, ((dd :: d2 :: rest).reverse : List Dir)
        = (d2 :: rest).reverse ++ [dd] := by intro dd; simp
    rw [hrev d] at h
    have hpre : ∃ m0, nodeAt t ((d2 :: rest).reverse) = some m0 := by
      rw [nodeAt_append] at h
      rcases ho : nodeAt t ((d2 :: rest).reverse) with _ | m0
      · rw [ho] at h; exact absurd h (by simp)
      · exact ⟨m0, rfl⟩
    rcases hpre with ⟨m0, hm0⟩
    have hafter : afterSub t ((d2 :: rest).reverse ++ [d])
        = afterSub m0 [d] ++ afterSub t ((d2 :: rest).reverse) :=
      afterSub_append [d] ((d2 :: rest).reverse) t m0 hm0
    cases d with
    | left =>
      right
      have hn2 : nodeAt m0 [Dir.left] = some n := by
        rw [nodeAt_append, hm0] at h
        exact h
      cases m0 with
      | nil => exact absurd hn2 (by simp [nodeAt])
      | node mk0 mv0 mc0 ml0 mr0 =>
        refine ⟨d2 :: rest, Tree.node mk0 mv0 mc0 ml0 mr0, mk0, rfl, hm0, rfl, ?_⟩
        rw [hrev Dir.left, hafter]
        have h1 : afterSub (Tree.node mk0 mv0 mc0 ml0 mr0) [Dir.left]
            = afterSub ml0 [] ++ mk0 :: mr0.keys := rfl
        rw [h1, afterSub_nil_path, succKeys_eq hm0]
        show (mk0 :: mr0.keys) ++ _ = mk0 :: (mr0.keys ++ _)
        simp
    | right =>
      rw [hrev Dir.right, hafter, afterSub_single_right, List.nil_append]
      have hb : backUpNext Dir.right (d2 :: rest) = backUpNext d2 rest := rfl
      rw [hb]
      exact ih d2 t m0 hm0

theorem nextStep_eq_of_right_node (t : Tree K V) (p : List Dir)
    {nk : K} {nv : V} {nc : Bool} {nl : Tree K V} {rk : K} {rv : V} {rc : Bool}
    {rl rr : Tree K V}
    (h : nodeAt t p = some (Tree.node nk nv nc nl (Tree.node rk rv rc rl rr))) :
    nextStep t (some p)
      = some (some (p ++ Dir.right :: leftPath (Tree.node rk rv rc rl rr)), true) := by
  unfold nextStep
  dsimp only
  rw [h]

theorem nextStep_eq_of_right_nil_cons (t : Tree K V) (p : List Dir)
    {nk : K} {nv : V} {nc : Bool} {nl : Tree K V}
    (h : nodeAt t p = some (Tree.node nk nv nc nl Tree.nil)) {d : Dir} {rest : List Dir}
    (hp : p.reverse = d :: rest) :
    nextStep t (some p)
      = some ((backUpNext d rest).1.map List.reverse, (backUpNext d rest).2) := by
  unfold nextStep
  dsimp only
  rw [h]
  dsimp only
  rw [hp]

theorem nextStep_eq_of_right_nil_root (t : Tree K V) (p : List Dir)
    {nk : K} {nv : V} {nc : Bool} {nl : Tree K V}
    (h : nodeAt t p = some (Tree.node nk nv nc nl Tree.nil)) (hp : p.reverse = []) :
    nextStep t (some p) = none := by
  unfold nextStep
  dsimp only
  rw [h]
  dsimp only
  rw [hp]

/-- When keys remain after the current position, `Next` moves to the
position holding the next in-order key and reports `true`. -/
theorem nextStep_succ (t : Tree K V) (p : List Dir) (n : Tree K V)
    (h : nodeAt t p = some n) (hne : succKeys t p ≠ []) :
    ∃ q m mk, nextStep t (some p) = some (some q, true) ∧ nodeAt t q = some m ∧
      m.key? = some mk ∧ succKeys t p = mk :: succKeys t q := by
  cases n with
  | nil => exact absurd (nodeAt_notNil h) (by simp [Tree.isNil])
  | node nk nv nc nl nr =>
    cases nr with
    | node rk rv rc rl rr =>
      rcases leftPath_spec (Tree.node rk rv rc rl rr) rfl with ⟨m, mk, hm, hmk, hkeys⟩
      refine ⟨p ++ Dir.right :: leftPath (Tree.node rk rv rc rl rr), m, mk,
        nextStep_eq_of_right_node t p h, ?_, hmk, ?_⟩
      · rw [nodeAt_append, h]
        exact hm
      · rw [succKeys_eq h]
        show (Tree.node rk rv rc rl rr).keys ++ afterSub t p = _
        rw [hkeys]
        have hq : nodeAt t (p ++ Dir.right :: leftPath (Tree.node rk rv rc rl rr))
            = some m := by
          rw [nodeAt_append, h]; exact hm
        rw [succKeys_eq hq]
        have ha : afterSub t (p ++ Dir.right :: leftPath (Tree.node rk rv rc rl rr))
            = afterSub (Tree.node nk nv nc nl (Tree.node rk rv rc rl rr))
                (Dir.right :: leftPath (Tree.node rk rv rc rl rr)) ++ afterSub t p :=
          afterSub_append _ p t _ h
        rw [ha]
        have hb : afterSub (Tree.node nk nv nc nl (Tree.node rk rv rc rl rr))
            (Dir.right :: leftPath (Tree.node rk rv rc rl rr))
            = afterSub (Tree.node rk rv rc rl rr)
                (leftPath (Tree.node rk rv rc rl rr)) := rfl
        rw [hb, succKeys_eq hm]
        simp [List.append_assoc]
    | nil =>
      have hsucc : succKeys t p = afterSub t p := by
        rw [succKeys_eq h]
        show Tree.keys Tree.nil ++ _ = _
        simp [Tree.keys]
      cases hp : p.reverse with
      | nil =>
        have hpnil : p = [] := by
          have h2 := congrArg List.reverse hp
          simpa using h2
        rw [hpnil, afterSub_nil_path] at hsucc
        rw [hpnil] at hne
        exact absurd hsucc hne
      | cons d rest =>
        have hprev : (d :: rest).reverse = p := by
          rw [← hp, List.reverse_reverse]
        have hnode : nodeAt t ((d :: rest).reverse)
            = some (Tree.node nk nv nc nl Tree.nil) := by
          rw [hprev]; exact h
        rcases backUpNext_spec rest d t _ hnode with ⟨hb, hafter⟩ |
          ⟨q, m, mk, hb, hm, hmk, hafter⟩
        · rw [hprev] at hafter
          exact absurd (hsucc.trans hafter) hne
        · refine ⟨q.reverse, m, mk, ?_, hm, hmk, ?_⟩
          · rw [nextStep_eq_of_right_nil_cons t p h hp, hb]
            rfl
          · rw [hprev] at hafter
            exact hsucc.trans hafter

/-- When the current position is the maximum but not the root, `Next`
reports `false` with the off-the-end sentinel. -/
theorem nextStep_last (t : Tree K V) (p : List Dir) (n : Tree K V)
    (h : nodeAt t p = some n) (hnil : succKeys t p = []) (hp : p ≠ []) :
    nextStep t (some p) = some (none, false) := by
  cases n with
  | nil => exact absurd (nodeAt_notNil h) (by simp [Tree.isNil])
  | node nk nv nc nl nr =>
    cases nr with
    | node rk rv rc rl rr =>
      rw [succKeys_eq h] at hnil
      simp [Tree.keys, Tree.right] at hnil
    | nil =>
      have hsucc : succKeys t p = afterSub t p := by
        rw [succKeys_eq h]
        show Tree.keys Tree.nil ++ _ = _
        simp [Tree.keys]
      cases hrev : p.reverse with
      | nil =>
        have hpnil : p = [] := by
          have h2 := congrArg List.reverse hrev
          simpa using h2
        exact absurd hpnil hp
      | cons d rest =>
        have hprev : (d :: rest).reverse = p := by
          rw [← hrev, List.reverse_reverse]
        have hnode : nodeAt t ((d :: rest).reverse)
            = some (Tree.node nk nv nc nl Tree.nil) := by
          rw [hprev]; exact h
        rcases backUpNext_spec rest d t _ hnode with ⟨hb, _⟩ |
          ⟨q, m, mk, hb, hm, hmk, hafter⟩
        · rw [nextStep_eq_of_right_nil_cons t p h hrev, hb]
          rfl
        · rw [hprev] at hafter
          rw [hsucc, hafter] at hnil
          exact absurd hnil (by simp)

/-- When the current position is the maximum and is the root, `Next`
dereferences the nil parent: run-time fault. -/
theorem nextStep_last_root (t : Tree K V) (n : Tree K V)
    (h : nodeAt t [] = some n) (hnil : succKeys t [] = []) :
    nextStep t (some []) = none := by
  cases n with
  | nil => exact absurd (nodeAt_notNil h) (by simp [Tree.isNil])
  | node nk nv nc nl nr =>
    cases nr with
    | node rk rv rc rl rr =>
      rw [succKeys_eq h] at hnil
      simp [Tree.keys, Tree.right] at hnil
    | nil => exact nextStep_eq_of_right_nil_root t [] h rfl

/-- The forward iteration protocol collects exactly the remaining keys,
provided the root has a right child (so the final `Next` cannot be sitting
at the root) and the fuel covers the remaining keys. -/
theorem forwardFrom_spec (t : Tree K V) (htr : t.right.isNil = false) :
    ∀ (ks : List K) (p : List Dir) (n : Tree K V) (fuel : Nat),
      nodeAt t p = some n → succKeys t p = ks → ks.length + 1 ≤ fuel →
      forwardFrom t fuel p = some ks := by
  intro ks
  induction ks with
  | nil =>
    intro p n fuel h hsucc hfuel
    have hp : p ≠ [] := by
      intro hpe
      subst hpe
      cases t with
      | nil => simp [Tree.right, Tree.isNil] at htr
      | node k v c l r =>
        rw [nodeAt] at h
        cases h
        rw [succKeys_eq (show nodeAt (Tree.node k v c l r) [] = some _ from rfl)] at hsucc
        cases r with
        | nil => simp [Tree.right, Tree.isNil] at htr
        | node rk rv rc rl rr => simp [Tree.right, Tree.keys] at hsucc
    rcases Nat.exists_eq_add_of_le hfuel with ⟨fuel2, hf⟩
    rw [hf, Nat.add_comm]
    show forwardFrom t (fuel2 + (0 + 1)) p = some []
    rw [forwardFrom]
    rw [nextStep_last t p n h hsucc hp]
  | cons mk rest ih =>
    intro p n fuel h hsucc hfuel
    rcases nextStep_succ t p n h (by rw [hsucc]; simp) with ⟨q, m, mk2, hstep, hm, hmk, hdecomp⟩
    rw [hsucc] at hdecomp
    have hmk2 : mk2 = mk := by
      have h2 := hdecomp
      injection h2 with h3 h4
      exact h3.symm
    have hrest : succKeys t q = rest := by
      injection hdecomp with h3 h4
      exact h4.symm
    rcases Nat.exists_eq_add_of_le hfuel with ⟨fuel2, hf⟩
    rw [hf]
    have hshape : rest.length + 1 + fuel2 = (rest.length + 1 + fuel2 - 1) + 1 := by omega
    rw [show (mk :: rest).length + 1 + fuel2
        = (rest.length + 1 + fuel2) + 1 by simp; omega]
    rw [forwardFrom]
    simp only [hstep, hm, hmk, hmk2]
    rw [ih q m (rest.length + 1 + fuel2) hm hrest (by omega)]
    rfl

/-- C3 core, forward direction: from `Begin`, repeated `Next` until it
first returns `false` visits exactly the in-order key sequence — provided
the root has a right child; otherwise the final step faults. -/
theorem forwardRun_eq (t : Tree K V) (htr : t.right.isNil = false) :
    forwardRun t = some t.keys := by
  cases t with
  | nil => simp [Tree.right, Tree.isNil] at htr
  | node k v c l r =>
    rcases leftPath_spec (Tree.node k v c l r) rfl with ⟨n, nk, hn, hk, hkeys⟩
    unfold forwardRun
    simp only [beginGo, hn, hk]
    have hlen : (succKeys (Tree.node k v c l r) (leftPath (Tree.node k v c l r))).length + 1
        = (Tree.node k v c l r).size := by
      rw [← keys_length_size, hkeys]
      simp
    rw [forwardFrom_spec (Tree.node k v c l r) htr
      (succKeys (Tree.node k v c l r) (leftPath (Tree.node k v c l r)))
      (leftPath (Tree.node k v c l r)) n (Tree.node k v c l r).size hn rfl (by omega)]
    rw [hkeys]
    rfl

theorem mirror_mirror : ∀ t : Tree K V, t.mirror.mirror = t := by
  intro t
  induction t with
  | nil => rfl
  | node k v c l r ihl ihr => simp [Tree.mirror, ihl, ihr]

theorem keys_mirror : ∀ t : Tree K V, t.mirror.keys = t.keys.reverse := by
  intro t
  induction t with
  | nil => rfl
  | node k v c l r ihl ihr => simp [Tree.mirror, Tree.keys, ihl, ihr]

theorem size_mirror : ∀ t : Tree K V, t.mirror.size = t.size := by
  intro t
  induction t with
  | nil => rfl
  | node k v c l r ihl ihr => simp [Tree.mirror, Tree.size, ihl, ihr]; omega

theorem right_mirror (t : Tree K V) : t.mirror.right = t.left.mirror := by
  cases t <;> rfl

theorem isNil_mirror (t : Tree K V) : t.mirror.isNil = t.isNil := by
  cases t <;> rfl

theorem key?_mirror (t : Tree K V) : t.mirror.key? = t.key? := by
  cases t <;> rfl

theorem flip_flip (d : Dir) : d.flip.flip = d := by
  cases d <;> rfl

theorem flip_comp : (Dir.flip ∘ Dir.flip) = (id : Dir → Dir) := by
  funext d
  exact flip_flip d

theorem flip_right_eq : Dir.right.flip = Dir.left := rfl

theorem flip_left_eq : Dir.left.flip = Dir.right := rfl

theorem map_flip_flip (p : List Dir) : (p.map Dir.flip).map Dir.flip = p := by
  rw [List.map_map]
  have h : (Dir.flip ∘ Dir.flip) = id := by
    funext d
    exact flip_flip d
  rw [h, List.map_id]

theorem nodeAt_mirror :
    ∀ (p : List Dir) (t : Tree K V),
      nodeAt t.mirror (p.map Dir.flip) = (nodeAt t p).map Tree.mirror := by
  intro p
  induction p with
  | nil =>
    intro t
    cases t <;> rfl
  | cons d p2 ih =>
    intro t
    cases t with
    | nil => rfl
    | node k v c l r => cases d <;> simp [Tree.mirror, Dir.flip, nodeAt, ih]

theorem leftPath_mirror : ∀ t : Tree K V, leftPath t.mirror = (rightPath t).map Dir.flip := by
  intro t
  induction t with
  | nil => rfl
  | node k v c l r ihl ihr =>
    cases r with
    | nil => rfl
    | node rk rv rc rl rr =>
      show Dir.left :: leftPath (Tree.mirror (Tree.node rk rv rc rl rr)) = _
      rw [ihr]
      rfl

theorem beginGo_mirror (t : Tree K V) :
    beginGo t.mirror = (lastGo t).map (List.map Dir.flip) := by
  cases t with
  | nil => rfl
  | node k v c l r =>
    show some (leftPath (Tree.mirror (Tree.node k v c l r))) = _
    rw [leftPath_mirror]
    rfl

theorem backUpPrev_mirror :
    ∀ (rest : List Dir) (d : Dir),
      backUpPrev d rest
        = ((backUpNext d.flip (rest.map Dir.flip)).1.map (List.map Dir.flip),
           (backUpNext d.flip (rest.map Dir.flip)).2) := by
  intro rest
  induction rest with
  | nil =>
    intro d
    cases d <;> rfl
  | cons d2 rest2 ih =>
    intro d
    cases d with
    | right =>
      have h1 : backUpNext Dir.right.flip ((d2 :: rest2).map Dir.flip)
          = (some (d2.flip :: rest2.map Dir.flip), true) := rfl
      show (some (d2 :: rest2), true) = _
      rw [h1]
      show (some (d2 :: rest2), true)
        = (some ((d2.flip :: rest2.map Dir.flip).map Dir.flip), true)
      rw [List.map_cons, flip_flip, map_flip_flip]
    | left =>
      show backUpPrev d2 rest2 = _
      rw [ih d2]
      rfl

theorem nextStep_eq_of_invalid (t : Tree K V) (p : List Dir)
    (h : nodeAt t p = none) : nextStep t (some p) = none := by
  unfold nextStep
  dsimp only
  rw [h]

theorem prevStep_eq_of_invalid (t : Tree K V) (p : List Dir)
    (h : nodeAt t p = none) : prevStep t (some p) = none := by
  unfold prevStep
  dsimp only
  rw [h]

theorem nextStep_eq_of_nil (t : Tree K V) (p : List Dir)
    (h : nodeAt t p = some Tree.nil) : nextStep t (some p) = none := by
  unfold nextStep
  dsimp only
  rw [h]

theorem prevStep_eq_of_nil (t : Tree K V) (p : List Dir)
    (h : nodeAt t p = some Tree.nil) : prevStep t (some p) = none := by
  unfold prevStep
  dsimp only
  rw [h]

theorem prevStep_eq_of_left_node (t : Tree K V) (p : List Dir)
    {nk : K} {nv : V} {nc : Bool} {nr : Tree K V} {lk : K} {lv : V} {lc : Bool}
    {ll lr : Tree K V}
    (h : nodeAt t p = some (Tree.node nk nv nc (Tree.node lk lv lc ll lr) nr)) :
    prevStep t (some p)
      = some (some (p ++ Dir.left :: rightPath (Tree.node lk lv lc ll lr)), true) := by
  unfold prevStep
  dsimp only
  rw [h]

theorem prevStep_eq_of_left_nil_cons (t : Tree K V) (p : List Dir)
    {nk : K} {nv : V} {nc : Bool} {nr : Tree K V}
    (h : nodeAt t p = some (Tree.node nk nv nc Tree.nil nr)) {d : Dir} {rest : List Dir}
    (hp : p.reverse = d :: rest) :
    prevStep t (some p)
      = some ((backUpPrev d rest).1.map List.reverse, (backUpPrev d rest).2) := by
  unfold prevStep
  dsimp only
  rw [h]
  dsimp only
  rw [hp]

theorem prevStep_eq_of_left_nil_root (t : Tree K V) (p : List Dir)
    {nk : K} {nv : V} {nc : Bool} {nr : Tree K V}
    (h : nodeAt t p = some (Tree.node nk nv nc Tree.nil nr)) (hp : p.reverse = []) :
    prevStep t (some p) = none := by
  unfold prevStep
  dsimp only
  rw [h]
  dsimp only
  rw [hp]

/-- `Prev` on `t` is exactly `Next` on the mirror image of `t`, with all
path directions flipped. -/
theorem prevStep_mirror (t : Tree K V) (cur : Option (List Dir)) :
    prevStep t cur
      = (nextStep t.mirror (cur.map (List.map Dir.flip))).map
          (fun s => (s.1.map (List.map Dir.flip), s.2)) := by
  cases cur with
  | none =>
    show (lastGo t).map (fun p => (some p, true))
      = ((beginGo t.mirror).map (fun p => (some p, true))).map
          (fun s => (s.1.map (List.map Dir.flip), s.2))
    rw [beginGo_mirror]
    cases lastGo t with
    | none => rfl
    | some p => simp [List.map_map, flip_comp]
  | some p =>
    show prevStep t (some p)
      = (nextStep t.mirror (some (p.map Dir.flip))).map
          (fun s => (s.1.map (List.map Dir.flip), s.2))
    have hmir : nodeAt t.mirror (p.map Dir.flip) = (nodeAt t p).map Tree.mirror :=
      nodeAt_mirror p t
    cases hN : nodeAt t p with
    | none =>
      rw [hN] at hmir
      rw [prevStep_eq_of_invalid t p hN,
        nextStep_eq_of_invalid t.mirror (p.map Dir.flip) hmir]
      rfl
    | some u =>
      rw [hN] at hmir
      cases u with
      | nil =>
        rw [prevStep_eq_of_nil t p hN,
          nextStep_eq_of_nil t.mirror (p.map Dir.flip) hmir]
        rfl
      | node k v c l r =>
        cases l with
        | node lk lv lc ll lr =>
          have hmir2 : nodeAt t.mirror (p.map Dir.flip)
              = some (Tree.node k v c r.mirror
                  (Tree.node lk lv lc lr.mirror ll.mirror)) := hmir
          rw [prevStep_eq_of_left_node t p hN,
            nextStep_eq_of_right_node t.mirror (p.map Dir.flip) hmir2]
          have hlp : leftPath (Tree.node lk lv lc lr.mirror ll.mirror)
              = (rightPath (Tree.node lk lv lc ll lr)).map Dir.flip :=
            leftPath_mirror (Tree.node lk lv lc ll lr)
          rw [hlp]
          simp [List.map_append, List.map_map, flip_comp, flip_right_eq]
        | nil =>
          have hmir2 : nodeAt t.mirror (p.map Dir.flip)
              = some (Tree.node k v c r.mirror Tree.nil) := hmir
          cases hrev : p.reverse with
          | nil =>
            have hrev2 : (p.map Dir.flip).reverse = [] := by
              rw [← List.map_reverse, hrev]
              rfl
            rw [prevStep_eq_of_left_nil_root t p hN hrev,
              nextStep_eq_of_right_nil_root t.mirror (p.map Dir.flip) hmir2 hrev2]
            rfl
          | cons d rest =>
            have hrev2 : (p.map Dir.flip).reverse = d.flip :: rest.map Dir.flip := by
              rw [← List.map_reverse, hrev]
              rfl
            rw [prevStep_eq_of_left_nil_cons t p hN hrev,
              nextStep_eq_of_right_nil_cons t.mirror (p.map Dir.flip) hmir2 hrev2]
            rw [backUpPrev_mirror rest d]
            rcases backUpNext d.flip (rest.map Dir.flip) with ⟨oq, b⟩
            cases oq with
            | none => rfl
            | some q =>
              show some (some ((q.map Dir.flip).reverse), b)
                = some (some (q.reverse.map Dir.flip), b)
              rw [List.map_reverse]

theorem backwardFrom_mirror (t : Tree K V) :
    ∀ (fuel : Nat) (p : List Dir),
      backwardFrom t fuel p = forwardFrom t.mirror fuel (p.map Dir.flip) := by
  intro fuel
  induction fuel with
  | zero => intro p; rfl
  | succ fuel2 ih =>
    intro p
    rw [backwardFrom, forwardFrom, prevStep_mirror]
    simp only [Option.map_some']
    cases hs : nextStep t.mirror (some (List.map Dir.flip p)) with
    | none => rfl
    | some s =>
      rcases s with ⟨oq, b⟩
      cases oq with
      | none => rfl
      | some q =>
        simp only [Option.map_some']
        have hq : nodeAt t.mirror q = (nodeAt t (List.map Dir.flip q)).map Tree.mirror := by
          have h2 := nodeAt_mirror (List.map Dir.flip q) t
          rw [map_flip_flip] at h2
          exact h2
        rw [hq]
        cases hN : nodeAt t (List.map Dir.flip q) with
        | none => rfl
        | some m =>
          rw [Option.map_some']
          dsimp only
          rw [key?_mirror]
          cases hk : m.key? with
          | none => rfl
          | some mk =>
            dsimp only
            rw [ih (List.map Dir.flip q), map_flip_flip]

/-- C3 core, backward direction. -/
theorem backwardRun_eq (t : Tree K V) (htl : t.left.isNil = false) :
    backwardRun t = some t.keys.reverse := by
  have h1 : t.mirror.right.isNil = false := by
    rw [right_mirror, isNil_mirror]
    exact htl
  have heq : backwardRun t = forwardRun t.mirror := by
    rw [backwardRun, forwardRun, beginGo_mirror]
    cases hl : lastGo t with
    | none => rfl
    | some p =>
      rw [Option.map_some']
      dsimp only
      rw [nodeAt_mirror]
      cases hN : nodeAt t p with
      | none => rfl
      | some n =>
        rw [Option.map_some']
        dsimp only
        rw [key?_mirror]
        cases hk : n.key? with
        | none => rfl
        | some nk =>
          dsimp only
          rw [size_mirror, backwardFrom_mirror]
  rw [heq, forwardRun_eq t.mirror h1, keys_mirror]

theorem chain_keys_of_isBSTb (cmp : K → K → Int) (hv : ValidOrder cmp) :
    ∀ t : Tree K V, isBSTb cmp t = true →
      List.Chain' (fun a b => cmp a b < 0) t.keys := by
  intro t
  induction t with
  | nil => intro _; exact List.chain'_nil
  | node k v c l r ihl ihr =>
    intro h
    rw [isBSTb_node_iff] at h
    obtain ⟨hl, hr, hbl, hbr⟩ := h
    show List.Chain' _ (l.keys ++ k :: r.keys)
    rw [List.chain'_append]
    refine ⟨ihl hbl, ?_, ?_⟩
    · rw [List.chain'_cons']
      refine ⟨?_, ihr hbr⟩
      intro y hy
      exact (hv.flip y k).mp (hr y (List.mem_of_mem_head? hy))
    · intro x hx y hy
      have hy2 : y = k := by
        simp [List.head?] at hy
        exact hy.symm
      rw [hy2]
      exact hl x (List.mem_of_getLast?_eq_some hx)

/-! ### Claim C3 -/

/-- C3 counterexample: the tree holding the single inserted key 1 is
non-empty, yet both full iteration protocols fault (the final `Next` and
`Prev` dereference the nil parent at the root) instead of ever returning
`false`, so the claimed complete traversal does not happen. -/
theorem single_insert_iteration_faults :
    (insertAll (New Int String) [(1, "a")]).root.isNil = false ∧
    forwardRun (insertAll (New Int String) [(1, "a")]).root = none ∧
    backwardRun (insertAll (New Int String) [(1, "a")]).root = none :=
  ⟨rfl, rfl, rfl⟩

/-- C3 (amended): for a tree built by `Insert`s under a valid ordering
strategy, if the root has a right child then `Begin` followed by `Next`
until it first returns `false` visits exactly the present keys in ascending
comparator order, and if the root has a left child then `Last` followed by
`Prev` until it first returns `false` visits exactly the same keys
reversed.  (When the root lacks the relevant child — trees of one or two
keys — the final step faults on a nil parent dereference instead of
returning `false`; see the counterexample.) -/
theorem iteration_visits_keys_in_order {K V : Type} (cmp : K → K → Int)
    (hv : ValidOrder cmp) (l : List (K × V))
    (hr : (insertAll (ofComparator cmp) l).root.right.isNil = false)
    (hl : (insertAll (ofComparator cmp) l).root.left.isNil = false) :
    forwardRun (insertAll (ofComparator cmp) l).root
        = some (insertAll (ofComparator cmp) l).root.keys ∧
    backwardRun (insertAll (ofComparator cmp) l).root
        = some ((insertAll (ofComparator cmp) l).root.keys).reverse ∧
    List.Chain' (fun a b => cmp a b < 0) (insertAll (ofComparator cmp) l).root.keys := by
  refine ⟨forwardRun_eq _ hr, backwardRun_eq _ hl, ?_⟩
  rw [insertAll_root l (ofComparator cmp)]
  exact chain_keys_of_isBSTb cmp hv _ (isBSTb_insertAllT cmp hv l Tree.nil rfl)

/-- C3 witness: inserting keys 1, 2, 3 gives a tree whose root has both
children; the forward run visits 1, 2, 3 and the backward run 3, 2, 1. -/
theorem iteration_visits_keys_in_order_witness :
    forwardRun (insertAll (ofComparator (@defaultComparator Int _))
        [(1, "a"), (2, "b"), (3, "c")]).root = some [1, 2, 3] ∧
    backwardRun (insertAll (ofComparator (@defaultComparator Int _))
        [(1, "a"), (2, "b"), (3, "c")]).root = some [3, 2, 1] := by
  have h := iteration_visits_keys_in_order (@defaultComparator Int _)
    validOrder_defaultComparator [(1, "a"), (2, "b"), (3, "c")] (by decide) (by decide)
  constructor
  · rw [h.1]; rfl
  · rw [h.2.1]; rfl

/-! ### Claim C5 -/

/-- C5 counterexample: obtaining an iterator from the freshly constructed
empty map faults (`Iterator` calls `Begin`, whose loop condition
dereferences the nil root), and `Next` at the root of a single-element
tree faults on `cur.parent.right` with a nil parent. -/
theorem empty_map_iterator_faults :
    TreeMap.Iterator (New Int String) = none ∧
    nextStep (insertAll (New Int String) [(1, "a")]).root (some []) = none :=
  ⟨rfl, rfl⟩

/-- C5 (amended): `Insert` always completes (the recursive insert never
returns nil, so recoloring the root is safe); `Search`, `Length`, `End`,
`Key` and `Value` are total functions of their inputs; obtaining an
`Iterator` and the positioning calls `Begin`/`Last` complete exactly on
non-empty trees; `Next`/`Prev` complete from the sentinel on non-empty
trees, and from a node position whenever that node has a right (resp.
left) child or is not the root.  On the empty tree `Iterator`, `Begin` and
`Last` fault, and at a root lacking the relevant child `Next`/`Prev`
fault — see the counterexample. -/
theorem operations_run_to_completion {K V : Type} :
    (∀ (cmp : K → K → Int) (t : Tree K V) (k : K) (v : V),
      (insertGo cmp t k v).isNil = false) ∧
    (∀ m : TreeMap K V, m.root.isNil = false →
      (TreeMap.Iterator m).isSome = true) ∧
    (∀ t : Tree K V, t.isNil = false →
      (beginGo t).isSome = true ∧ (lastGo t).isSome = true ∧
      (nextStep t none).isSome = true ∧ (prevStep t none).isSome = true) ∧
    (∀ (t : Tree K V) (p : List Dir) (n : Tree K V), nodeAt t p = some n →
      (n.right.isNil = false ∨ p ≠ []) → (nextStep t (some p)).isSome = true) ∧
    (∀ (t : Tree K V) (p : List Dir) (n : Tree K V), nodeAt t p = some n →
      (n.left.isNil = false ∨ p ≠ []) → (prevStep t (some p)).isSome = true) := by
  have hrotL : ∀ x : Tree K V, x.isNil = false → (rotateLeft x).isNil = false := by
    intro x hx
    cases x with
    | nil => exact hx
    | node k v c l r => cases r <;> rfl
  have hrotR : ∀ x : Tree K V, x.isNil = false → (rotateRight x).isNil = false := by
    intro x hx
    cases x with
    | nil => exact hx
    | node k v c l r => cases l <;> rfl
  have hflip : ∀ x : Tree K V, x.isNil = false → (flipColors x).isNil = false := by
    intro x hx
    cases x with
    | nil => exact hx
    | node k v c l r => cases l <;> cases r <;> rfl
  refine ⟨?_, ?_, ?_, ?_, ?_⟩
  · intro cmp t k v
    cases t with
    | nil => rfl
    | node ck cv cc cl cr =>
      rw [insertGo]
      apply fixUp_pres (fun x => x.isNil = false) hrotL hrotR hflip
      split
      · rfl
      · split
        · rfl
        · rfl
  · intro m hm
    unfold TreeMap.Iterator
    cases hroot : m.root with
    | nil => rw [hroot] at hm; exact absurd hm (by simp [Tree.isNil])
    | node k v c l r => rfl
  · intro t ht
    cases t with
    | nil => exact absurd ht (by simp [Tree.isNil])
    | node k v c l r => exact ⟨rfl, rfl, rfl, rfl⟩
  · intro t p n h hcases
    cases n with
    | nil => exact absurd (nodeAt_notNil h) (by simp [Tree.isNil])
    | node nk nv nc nl nr =>
      cases nr with
      | node rk rv rc rl rr =>
        rw [nextStep_eq_of_right_node t p h]
        rfl
      | nil =>
        rcases hcases with hcr | hp
        · exact absurd hcr (by simp [Tree.right, Tree.isNil])
        · cases hrev : p.reverse with
          | nil =>
            exact absurd (by
              have h2 := congrArg List.reverse hrev
              simpa using h2) hp
          | cons d rest =>
            rw [nextStep_eq_of_right_nil_cons t p h hrev]
            rfl
  · intro t p n h hcases
    cases n with
    | nil => exact absurd (nodeAt_notNil h) (by simp [Tree.isNil])
    | node nk nv nc nl nr =>
      cases nl with
      | node lk lv lc ll lr =>
        rw [prevStep_eq_of_left_node t p h]
        rfl
      | nil =>
        rcases hcases with hcl | hp
        · exact absurd hcl (by simp [Tree.left, Tree.isNil])
        · cases hrev : p.reverse with
          | nil =>
            exact absurd (by
              have h2 := congrArg List.reverse hrev
              simpa using h2) hp
          | cons d rest =>
            rw [prevStep_eq_of_left_nil_cons t p h hrev]
            rfl

/-- C5 witness: on the two-element tree the iterator is obtained without
fault, and Next at the leftmost position completes. -/
theorem operations_run_to_completion_witness :
    (TreeMap.Iterator (insertAll (New Int String) [(2, "b"), (1, "a")])).isSome = true ∧
    (nextStep (insertAll (New Int String) [(2, "b"), (1, "a")]).root
      (some [Dir.left])).isSome = true := by
  constructor
  · exact (@operations_run_to_completion Int String).2.1 _ (by decide)
  · exact (@operations_run_to_completion Int String).2.2.2.1 _ [Dir.left]
      (Tree.node 1 "a" red Tree.nil Tree.nil) (by decide) (Or.inr (by decide))

/-! ### Claim C6 -/

/-- C6: on a non-empty tree, `Next` from the off-the-end sentinel lands on
the first (leftmost) element — the head of the in-order key sequence — and
returns `true`; `Prev` from the sentinel lands on the last (rightmost)
element — the last in-order key — and returns `true`. -/
theorem sentinel_reentry {K V : Type} (m : TreeMap K V) (h : m.root.isNil = false) :
    (∃ p n k, beginGo m.root = some p ∧ nextStep m.root none = some (some p, true) ∧
      nodeAt m.root p = some n ∧ n.key? = some k ∧ m.root.keys.head? = some k) ∧
    (∃ p n k, lastGo m.root = some p ∧ prevStep m.root none = some (some p, true) ∧
      nodeAt m.root p = some n ∧ n.key? = some k ∧ m.root.keys.getLast? = some k) := by
  constructor
  · rcases leftPath_spec m.root h with ⟨n, k, hn, hk, hkeys⟩
    refine ⟨leftPath m.root, n, k, ?_, ?_, hn, hk, ?_⟩
    · cases hroot : m.root with
      | nil => rw [hroot] at h; exact absurd h (by simp [Tree.isNil])
      | node k2 v2 c2 l2 r2 => rfl
    · show (beginGo m.root).map (fun p => (some p, true)) = _
      cases hroot : m.root with
      | nil => rw [hroot] at h; exact absurd h (by simp [Tree.isNil])
      | node k2 v2 c2 l2 r2 =>
        rw [← hroot]
        have hb : beginGo m.root = some (leftPath m.root) := by
          rw [hroot]; rfl
        rw [hb]
        rfl
    · rw [hkeys]
      rfl
  · have hmir : m.root.mirror.isNil = false := by rw [isNil_mirror]; exact h
    rcases leftPath_spec m.root.mirror hmir with ⟨n, k, hn, hk, hkeys⟩
    have hlp : leftPath m.root.mirror = (rightPath m.root).map Dir.flip :=
      leftPath_mirror m.root
    have hn2 : (nodeAt m.root (rightPath m.root)).map Tree.mirror = some n := by
      rw [← nodeAt_mirror, ← hlp]
      exact hn
    rcases ho : nodeAt m.root (rightPath m.root) with _ | n0
    · rw [ho] at hn2; exact absurd hn2 (by simp)
    · rw [ho, Option.map_some'] at hn2
      have hn0mir : n0.mirror = n := by
        injection hn2
      refine ⟨rightPath m.root, n0, k, ?_, ?_, ho, ?_, ?_⟩
      · cases hroot : m.root with
        | nil => rw [hroot] at h; exact absurd h (by simp [Tree.isNil])
        | node k2 v2 c2 l2 r2 => rfl
      · rw [prevStep_mirror]
        show (nextStep m.root.mirror none).map _ = _
        have hstep : nextStep m.root.mirror none
            = some (some (leftPath m.root.mirror), true) := by
          show (beginGo m.root.mirror).map (fun p => (some p, true)) = _
          cases hroot : m.root with
          | nil => rw [hroot] at h; exact absurd h (by simp [Tree.isNil])
          | node k2 v2 c2 l2 r2 =>
            rw [← hroot]
            have hb : beginGo m.root.mirror = some (leftPath m.root.mirror) := by
              rw [hroot]; rfl
            rw [hb]
            rfl
        rw [hstep, Option.map_some', hlp]
        show some (some (((rightPath m.root).map Dir.flip).map Dir.flip), true) = _
        rw [map_flip_flip]
      · rw [← hn0mir, key?_mirror] at hk
        exact hk
      · rw [keys_mirror] at hkeys
        have h2 : m.root.keys.reverse.head? = some k := by rw [hkeys]; rfl
        rw [← List.head?_reverse]
        exact h2

/-- C6 witness: on the tree holding keys 1 and 2, `Next` from the sentinel
re-enters at key 1 and `Prev` from the sentinel enters at key 2. -/
theorem sentinel_reentry_witness :
    ∃ p n k, beginGo (insertAll (New Int String) [(1, "a"), (2, "b")]).root = some p ∧
      nextStep (insertAll (New Int String) [(1, "a"), (2, "b")]).root none
        = some (some p, true) ∧
      nodeAt (insertAll (New Int String) [(1, "a"), (2, "b")]).root p = some n ∧
      n.key? = some k ∧
      (insertAll (New Int String) [(1, "a"), (2, "b")]).root.keys.head? = some k :=
  (sentinel_reentry (insertAll (New Int String) [(1, "a"), (2, "b")]) (by decide)).1

/-! ### Claim C10 -/

/-- C10: for every sequence of `Insert` calls on a fresh tree, `Length`
returns exactly the number of `Insert` calls made so far, and every single
call — also one whose key is already present — increments the count by one. -/
theorem length_counts_every_insert {K V : Type} [LinearOrder K] (l : List (K × V)) :
    (insertAll (New K V) l).Length = l.length ∧
    ∀ (m : TreeMap K V) (k : K) (v : V), (m.Insert k v).Length = m.Length + 1 := by
  constructor
  · rw [insertAll_length]; simp [New, TreeMap.Length]
  · intro m k v; rfl

/-! ### Claim C8 -/

/-- C8: construction in custom mode fails with the configuration error
exactly when no comparison mechanism is supplied; with at least one option
(a compare function or a comparer) it succeeds and yields the container with
the resulting comparator installed. -/
theorem newWithComparator_error_iff_no_option {K V : Type} (opts : List (TMOption K)) :
    ((∃ e, @NewWithComparator K V opts = Except.error e) ↔ opts = []) ∧
    (opts ≠ [] → ∃ cmp, @NewWithComparator K V opts = Except.ok (ofComparator cmp)) := by
  constructor
  · constructor
    · intro ⟨e, he⟩
      by_contra hne
      have hs := foldl_applyOpt_isSome opts none hne
      unfold NewWithComparator at he
      rcases hd : opts.foldl (fun acc o => applyOpt o acc) none with _ | cmp
      · rw [hd] at hs; simp at hs
      · rw [hd] at he; simp at he
    · rintro rfl
      exact ⟨"must provide a valid comparator", rfl⟩
  · intro hne
    have hs := foldl_applyOpt_isSome opts none hne
    unfold NewWithComparator
    rcases hd : opts.foldl (fun acc o => applyOpt o acc) none with _ | cmp
    · rw [hd] at hs; simp at hs
    · exact ⟨cmp, rfl⟩

/-- C8 witness: a single supplied compare function makes construction
succeed with that comparator. -/
theorem newWithComparator_witness :
    ∃ cmp, @NewWithComparator Int String [TMOption.withCompareFunc defaultComparator]
      = Except.ok (ofComparator cmp) :=
  (newWithComparator_error_iff_no_option [TMOption.withCompareFunc defaultComparator]).2
    (List.cons_ne_nil _ _)

/-! ### Claim C4 -/

/-- C4: the claim states every rotate-right returns the former left child
`x` as the new subtree root.  `treemap`'s (and `rbtree`'s) rotation does;
`redblack`'s `rotateRight` ends with `return h`, handing back the demoted
node `h` recolored red and dropping `x` (here the node with key 1) and `x`'s
left subtree from the result entirely. -/
theorem redblack_rotateRight_returns_h :
    redblackRotateRight
        (Tree.node 2 "b" black (Tree.node 1 "a" red Tree.nil Tree.nil) Tree.nil)
      = Tree.node 2 "b" red Tree.nil Tree.nil ∧
    rotateRight
        (Tree.node 2 "b" black (Tree.node 1 "a" red Tree.nil Tree.nil) Tree.nil)
      = Tree.node 1 "a" black Tree.nil (Tree.node 2 "b" red Tree.nil Tree.nil) ∧
    rbtreeRotateRight
        (Tree.node 2 "b" black (Tree.node 1 "a" red Tree.nil Tree.nil) Tree.nil)
      = Tree.node 1 "a" black Tree.nil (Tree.node 2 "b" red Tree.nil Tree.nil) :=
  ⟨rfl, rfl, rfl⟩

/-! ### Claim C7 -/

/-- C7: the claim states the comparison applied to `(a, b)` equals `a`'s own
compare-to applied to `b`.  The comparator `WithComparer` actually installs
ignores `a` and compares the fixed constructor-time instance against `b`:
with the instance at height 10 (as in the repository's test), keys 5 and 10
compare as 0 where the claim requires `-1`. -/
theorem withComparer_ignores_first_argument :
    ∃ m : TreeMap Int String,
      @NewWithComparator Int String [TMOption.withComparer (defaultComparator 10)]
        = Except.ok m ∧
      m.comparator 5 10 = 0 ∧
      defaultComparator (5 : Int) 10 = -1 := by
  refine ⟨ofComparator (withComparerComparator (defaultComparator 10)), rfl, ?_, ?_⟩
  · show defaultComparator (10 : Int) 10 = 0
    simp [defaultComparator]
  · simp [defaultComparator]

end Treemap
